import Mathlib

/-!
# A shallow embedding of the SATellite SAT solver (`src/main.cpp`)

This file embeds, in Lean 4, the data model and the operations of the
SATellite solver found in `src/main.cpp` (the current revision, whose
live pipeline is `main → Solver::run`: Build (FileParser/ContextBuilder)
→ Simplify (Simplifier) → DPLL, plus the standalone `GraphSolver` class,
which `main` does not invoke).

Modelling conventions:
* `VariableID` (`uint32_t`) becomes `Nat`; `LiteralID` (`int`) becomes
  `Int`.  The only place where 32-bit wrap-around is reachable is the
  parser's digit accumulator, which is reduced `% 2^32` exactly as
  `uint32_t` arithmetic does.
* `LiteralAssignment`'s `std::vector<bool> m_assignments` becomes a
  `List Bool` with the very same index arithmetic.
* Stateful code is state passing: functions that mutate
  `ctx.assignments` return the new `LiteralAssignment`.
* `Node::evaluate` is embedded at the tree shape the program actually
  builds: `ContextBuilder::finish` makes the root an `AND` node whose
  children are exactly the `LITERAL_OR` clause nodes (one per input
  clause with ≥ 2 literals), so evaluation is a clause-level literal
  loop (`Clause.evalLoop`/`Node.evaluateClause`) under an AND fold over
  the clause list (`Node.evaluateRoot`).  The `propagateUnit` callbacks
  passed by `Simplifier::run` and `DPLL::step` both do
  `assignLiteral(lit, true)` and return `true`; the default callback
  returns `false`.  This is captured by the `prop : Bool` parameter,
  and the list of literals handed to the callback is returned so that
  `DPLL` can push its trail entries.
* Functions whose C++ form recurses through mutating loops
  (`Simplifier::run`, `DPLL::step`, `FileParser::parseChunk`) are
  embedded with an explicit fuel parameter; `none`/`outOfFuel` means
  the fuel ran out.  Theorems below show the fuel used by the
  composed pipeline is always sufficient.
* The solver's `exit`/print behaviour (`SOLUTION_FOUND`, `NO_SOLUTION`,
  `ASSURE`) is modelled by the `Verdict` type together with `exitCode`.
-/

namespace Satellite

/-- `src/main.cpp` `struct Assignment`: an optionally-assigned truth value. -/
structure Assignment where
  assigned : Bool
  value : Bool
deriving Repr, DecidableEq

/-- `toVariable(literal)`: the variable of a literal (`abs`). -/
def toVariable (literal : Int) : Nat := literal.natAbs

/-- `toLiteral(variable, negate)`. -/
def toLiteral (v : Nat) (negate : Bool) : Int :=
  if negate then -(v : Int) else (v : Int)

/-- `isNegated(literal)`. -/
def isNegated (literal : Int) : Bool := literal < 0

/-- `class LiteralAssignment`: assignments for all variables, stored as a
bitmask (`std::vector<bool>`), two bits per variable: index
`(id-1)*2` is the assigned flag, `(id-1)*2 + 1` the value. -/
structure LiteralAssignment where
  m : List Bool
deriving Repr, DecidableEq

namespace LiteralAssignment

/-- `std::vector<bool>::resize`: keep a prefix, pad with `false`. -/
def resizeList (l : List Bool) (n : Nat) : List Bool :=
  if n ≤ l.length then l.take n else l ++ List.replicate (n - l.length) false

/-- `setMaxVariable(max)`: `m_assignments.resize(max * 2)`. -/
def setMaxVariable (σ : LiteralAssignment) (max : Nat) : LiteralAssignment :=
  ⟨resizeList σ.m (max * 2)⟩

/-- `getMaxVariable()`: `m_assignments.size() / 2`. -/
def getMaxVariable (σ : LiteralAssignment) : Nat := σ.m.length / 2

/-- `getVariableAssignment(id)`: out-of-range ids are unassigned, in-range
ids read the two bits.  (For `id ≤ getMaxVariable` the C++ `.at` calls
are in bounds, so `getD` reads exactly the stored bits.) -/
def getVariableAssignment (σ : LiteralAssignment) (id : Nat) : Assignment :=
  if id > σ.getMaxVariable then { assigned := false, value := false }
  else { assigned := σ.m.getD ((id - 1) * 2) false,
         value := σ.m.getD ((id - 1) * 2 + 1) false }

/-- `getLiteralAssignment(literal)`: variable assignment, value flipped for
negated literals. -/
def getLiteralAssignment (σ : LiteralAssignment) (literal : Int) : Assignment :=
  let a := σ.getVariableAssignment (toVariable literal)
  { assigned := a.assigned, value := if isNegated literal then !a.value else a.value }

/-- `assignVariable(id, value)`: grow the store if needed, then set the two
bits.  (The `DEV_ASSURE` duplicate-assignment check is compiled out in
release builds.) -/
def assignVariable (σ : LiteralAssignment) (id : Nat) (value : Bool) : LiteralAssignment :=
  let σ1 := if id > σ.getMaxVariable then σ.setMaxVariable id else σ
  ⟨(σ1.m.set ((id - 1) * 2) true).set ((id - 1) * 2 + 1) value⟩

/-- `unassignVariable(id)`: clear the assigned bit (the value bit is left
behind, exactly as in the C++). -/
def unassignVariable (σ : LiteralAssignment) (id : Nat) : LiteralAssignment :=
  ⟨σ.m.set ((id - 1) * 2) false⟩

/-- `assignLiteral(literal, value)`. -/
def assignLiteral (σ : LiteralAssignment) (literal : Int) (value : Bool) : LiteralAssignment :=
  σ.assignVariable (toVariable literal) (if isNegated literal then !value else value)

/-- The abstraction of the store: `some v` when the variable is assigned
with value `v`, `none` when unassigned.  All solver behaviour factors
through this view (the value bit of an unassigned slot is never read). -/
def lookup (σ : LiteralAssignment) (id : Nat) : Option Bool :=
  let a := σ.getVariableAssignment id
  if a.assigned then some a.value else none

/-- The model line printed by `print(out, true)` on SAT: each assigned
variable as a signed literal, ascending by variable id. -/
def printModel (σ : LiteralAssignment) : List Int :=
  (List.range' 1 σ.getMaxVariable).filterMap fun i =>
    let a := σ.getVariableAssignment i
    if a.assigned then some (if a.value then (i : Int) else -(i : Int)) else none

/-- The empty store. -/
def init : LiteralAssignment := ⟨[]⟩

end LiteralAssignment

/-! ## Node evaluation

`Node::evaluate` (src/main.cpp, lines 330–363), embedded at the tree
shape built by `ContextBuilder`: an `AND` root whose children are the
`LITERAL_OR` clause nodes.  A clause is its literal list (`List Int`),
the formula is the clause list. -/

/-- `Node::updateAssignment` for an `OR` node: an unassigned child leaves
the accumulator unchanged (only `AND` clears the flag), a true child
makes the node true, a false child changes nothing. -/
def updateOr (a : Assignment) (child : Assignment) : Assignment :=
  if !child.assigned then a
  else if child.value then { assigned := true, value := true }
  else a

/-- `Node::shortCircuit` for an `OR` node. -/
def shortCircuitOr (a : Assignment) : Bool := a.assigned && a.value

/-- `Node::updateAssignment` for an `AND` node. -/
def updateAnd (a : Assignment) (child : Assignment) : Assignment :=
  if !child.assigned then { assigned := false, value := a.value }
  else if !child.value then { assigned := true, value := false }
  else a

/-- `Node::shortCircuit` for an `AND` node. -/
def shortCircuitAnd (a : Assignment) : Bool := a.assigned && !a.value

/-- Accumulator of the literal loop in `Node::evaluate`: the running
`assignment`, `unassignedCount` and `unitLiteral`. -/
structure EvalLoopState where
  a : Assignment
  cnt : Nat
  unit : Int
deriving Repr, DecidableEq

/-- The literal loop of `Node::evaluate` on a `LITERAL_OR` node: skip
`NO_LITERAL`, fold each literal's assignment into the accumulator,
return early (second component `true`) on short circuit, and track the
count of unassigned literals together with the first one seen. -/
def Clause.evalLoop (σ : LiteralAssignment) : List Int → EvalLoopState → EvalLoopState × Bool
  | [], s => (s, false)
  | l :: rest, s =>
    if l = 0 then Clause.evalLoop σ rest s
    else
      let la := σ.getLiteralAssignment l
      let a1 := updateOr s.a la
      if shortCircuitOr a1 then ({ s with a := a1 }, true)
      else
        let s1 : EvalLoopState :=
          if !la.assigned then
            { a := a1, cnt := s.cnt + 1, unit := if s.cnt + 1 = 1 then l else s.unit }
          else { s with a := a1 }
        Clause.evalLoop σ rest s1

/-- `Node::evaluate` on a `LITERAL_OR` clause node.  `prop` tells whether
the `propagateUnit` callback assigns the unit literal to true and
returns `true` (as the callbacks installed by `Simplifier::run` and
`DPLL::step` do) or returns `false` (the default callback).  Returns
the node's assignment, the literal store after the callback ran, and
the list of literals handed to the callback. -/
def Node.evaluateClause (prop : Bool) (σ : LiteralAssignment) (c : List Int) :
    Assignment × LiteralAssignment × List Int :=
  match Clause.evalLoop σ c ⟨{ assigned := false, value := false }, 0, 0⟩ with
  | (s, true) => (s.a, σ, [])
  | (s, false) =>
    if s.cnt = 1 ∧ prop then
      ({ assigned := true, value := true }, σ.assignLiteral s.unit true, [s.unit])
    else (if s.cnt = 0 then { assigned := true, value := s.a.value } else s.a, σ, [])

/-- The children loop of `Node::evaluate` on the `AND` root: evaluate each
clause in turn (each evaluation may extend the literal store through
unit propagation), fold the result with `updateAnd`, stop on short
circuit.  Also returns the concatenated propagated literals. -/
def Node.rootLoop (prop : Bool) (σ : LiteralAssignment) (a : Assignment) :
    List (List Int) → Assignment × LiteralAssignment × List Int
  | [] => (a, σ, [])
  | c :: rest =>
    let r := Node.evaluateClause prop σ c
    let a1 := updateAnd a r.1
    if shortCircuitAnd a1 then (a1, r.2.1, r.2.2)
    else
      let r2 := Node.rootLoop prop r.2.1 a1 rest
      (r2.1, r2.2.1, r.2.2 ++ r2.2.2)

/-- `Node::evaluate` on the `AND` root node: default assignment
`{assigned := true, value := true}`, empty literal loop, then the
children loop over the clause list. -/
def Node.evaluateRoot (prop : Bool) (σ : LiteralAssignment) (f : List (List Int)) :
    Assignment × LiteralAssignment × List Int :=
  Node.rootLoop prop σ { assigned := true, value := true } f

/-- `Node::simplify` on the root (src/main.cpp, lines 444–462): drop every
clause whose evaluation under `σ` (with the default callback) is
assigned true, then inside each remaining clause drop `NO_LITERAL`
entries and every literal whose variable is assigned. -/
def Node.simplifyFormula (σ : LiteralAssignment) (f : List (List Int)) : List (List Int) :=
  (f.filter fun c =>
      !((Node.evaluateClause false σ c).1.assigned && (Node.evaluateClause false σ c).1.value)).map
    fun c => c.filter fun l => !(l == 0) && !(σ.getLiteralAssignment l).assigned

/-- `Node::getUnassignedVariables` (src/main.cpp, lines 384–391): visit
all (non-`NO_LITERAL`) literals of the tree, keep the unassigned ones,
and collect their variables into a `std::set` — i.e. an ascending,
duplicate-free list. -/
def Node.getUnassignedVariables (f : List (List Int)) (σ : LiteralAssignment) : List Nat :=
  ((((f.flatMap fun c => c.filter (· ≠ 0)).filter
        fun l => !(σ.getLiteralAssignment l).assigned).map toVariable).insertionSort (· ≤ ·)).dedup

/-! ## ContextBuilder (src/main.cpp, lines 512–562) -/

/-- The builder's mutable data: the clause buffer `m_current`, the clause
nodes allocated so far (`ctx.nodeMemory`, which `finish` turns into the
children of the `AND` root), and `ctx.assignments`. -/
structure BuilderState where
  current : List Int
  nodes : List (List Int)
  σ : LiteralAssignment
deriving Repr, DecidableEq

/-- Result of one builder step: either the new state, or the
`NO_SOLUTION(literal << " conflict")` exit taken for a unit clause that
contradicts an existing assignment. -/
inductive BuildStep where
  | ok (b : BuilderState)
  | conflictExit
deriving Repr, DecidableEq

/-- `ContextBuilder::addConjunction`: an empty buffer is ignored, a
single-literal buffer becomes a direct assignment (or the conflict
exit), a longer buffer becomes a `LITERAL_OR` clause node holding the
literals exactly as given. -/
def ContextBuilder.addConjunction (b : BuilderState) : BuildStep :=
  if b.current.length = 0 then .ok b
  else if b.current.length = 1 then
    let literal := b.current.headD 0
    let existing := b.σ.getLiteralAssignment literal
    if existing.assigned then
      if !existing.value then .conflictExit
      else .ok { b with current := [] }
    else .ok { b with current := [], σ := b.σ.assignLiteral literal true }
  else .ok { b with current := [], nodes := b.nodes ++ [b.current] }

/-- `ContextBuilder::addLiteral`: `0` ends the clause, anything else is
pushed onto `m_current`. -/
def ContextBuilder.addLiteral (b : BuilderState) (literal : Int) : BuildStep :=
  if literal = 0 then ContextBuilder.addConjunction b
  else .ok { b with current := b.current ++ [literal] }

/-- Outcome of parsing plus building. -/
inductive ParseResult where
  | outOfFuel
  | inputError
  | unsatExit
  | built (f : List (List Int)) (σ : LiteralAssignment)
deriving Repr, DecidableEq

/-- `ContextBuilder::finish`: `ASSURE(m_current.empty())` (an unterminated
clause is an input error), then the root `AND` node is built over
`nodeMemory.all()`.  Collecting the children runs
`ASSURE(m_memory.size() == 1, "Memory spans multiple pages")`
(src/main.cpp, line 52): `Memory` starts with one page of
`BUFFER_SIZE = 1048576` slots and `allocate(Node&&)` opens a second page
once `1 + size > BUFFER_SIZE`, so the check fails — `exit(1)` before any
verdict — exactly when more than `1048576` clause nodes were stored
(the argument `Node(AND, all())` is evaluated before the root itself is
allocated, so the root does not count). -/
def ContextBuilder.finish (b : BuilderState) : ParseResult :=
  if b.current.isEmpty then
    if b.nodes.length ≤ 1048576 then .built b.nodes b.σ else .inputError
  else .inputError

/-! ## FileParser (src/main.cpp, lines 565–612)

`FileParser::parseChunk` reads characters one at a time; the control
flow is embedded as a fueled state machine whose modes correspond to
the program points of the loop nest: the outer `while (true)`
(`PMode.outer`), the clause loop body holding the current cursor
(`PMode.clause`), the digit loop (`PMode.digits`), and the point after
the digit loop where the literal is handed to `addLiteral`
(`PMode.emit`). -/

/-- Parser mode (program point of `parseChunk`). -/
inductive PMode where
  | outer
  | clause (cursor : Char)
  | digits (cursor : Char) (negate : Bool) (acc : Nat)
  | emit (negate : Bool) (acc : Nat)
deriving Repr, DecidableEq

/-- `in.ignore(max, newline)`: drop everything up to and including the
next newline. -/
def skipLine (l : List Char) : List Char := (l.dropWhile (· ≠ '\n')).drop 1

/-- `FileParser::parseChunk` plus `run`'s trailing `finish`, as a fueled
state machine over the remaining input.  The digit accumulator is a
`uint32_t`, hence the `% 2^32`. -/
def FileParser.parseRun : Nat → PMode → List Char → BuilderState → ParseResult
  | 0, _, _, _ => .outOfFuel
  | fuel + 1, .outer, input, b =>
    match input with
    | [] => ContextBuilder.finish b
    | ch :: rest =>
      if ch = 'c' then FileParser.parseRun fuel .outer (skipLine rest) b
      else if ch = 'p' then FileParser.parseRun fuel .outer (skipLine rest) b
      else FileParser.parseRun fuel (.clause ch) rest b
  | fuel + 1, .clause cursor, input, b =>
    if cursor = '-' then
      match input with
      | [] => .inputError
      | ch :: rest => FileParser.parseRun fuel (.digits ch true 0) rest b
    else FileParser.parseRun fuel (.digits cursor false 0) input b
  | fuel + 1, .digits cursor negate acc, input, b =>
    if '0' ≤ cursor ∧ cursor ≤ '9' then
      let acc1 := (10 * acc + (cursor.toNat - 48)) % 4294967296
      match input with
      | [] => FileParser.parseRun fuel (.emit negate acc1) [] b
      | ch :: rest =>
        if ch = ' ' ∨ ch = '\n' then FileParser.parseRun fuel (.emit negate acc1) rest b
        else FileParser.parseRun fuel (.digits ch negate acc1) rest b
    else .inputError
  | fuel + 1, .emit negate acc, input, b =>
    match ContextBuilder.addLiteral b (toLiteral acc negate) with
    | .conflictExit => .unsatExit
    | .ok b1 =>
      if acc = 0 then FileParser.parseRun fuel .outer input b1
      else
        match input with
        | [] => FileParser.parseRun fuel .outer [] b1
        | ch :: rest => FileParser.parseRun fuel (.clause ch) rest b1

/-- The initial builder state: empty buffer, no nodes, empty store. -/
def BuilderState.init : BuilderState := ⟨[], [], LiteralAssignment.init⟩

/-- Parse a whole input with sufficient fuel (shown sufficient below). -/
def FileParser.parseInput (input : List Char) : ParseResult :=
  FileParser.parseRun (4 * input.length + 4) .outer input BuilderState.init

/-! ## Simplifier (src/main.cpp, lines 625–652)

`Simplifier::run` repeats `root->evaluate` with the assigning callback
while the result is unassigned and the pass assigned something (the
`assigned` flag, here: the propagated-literal list is nonempty).  The
trailing `root->simplify` of the unassigned case is
`Node.simplifyFormula` above, applied by the pipeline. -/

/-- The `do … while` loop of `Simplifier::run`, fueled.  Returns the last
evaluation result together with the final literal store. -/
def Simplifier.runFuel : Nat → LiteralAssignment → List (List Int) →
    Option (Assignment × LiteralAssignment)
  | 0, _, _ => none
  | fuel + 1, σ, f =>
    let r := Node.evaluateRoot true σ f
    if !r.1.assigned ∧ r.2.2 ≠ [] then Simplifier.runFuel fuel r.2.1 f
    else some (r.1, r.2.1)

/-! ## DPLL (src/main.cpp, lines 690–781) -/

/-- `DPLL::TrailStep`. -/
structure TrailStep where
  assignment : Int
  unit : Bool
deriving Repr, DecidableEq

/-- The engine's mutable data: `m_ctx.assignments` and `trail`.  The head
of the list is the top of the trail (the back of the C++ vector). -/
structure DPLLState where
  assignments : LiteralAssignment
  trail : List TrailStep
deriving Repr, DecidableEq

/-- `DPLL::assign(lit, unit)`: push a trail step and assign the literal
to true. -/
def DPLL.assign (st : DPLLState) (lit : Int) (unit : Bool) : DPLLState :=
  { assignments := st.assignments.assignLiteral lit true,
    trail := ⟨lit, unit⟩ :: st.trail }

/-- `DPLL::unwind()`: pop trail steps, unassigning each popped variable,
until a non-unit (decision) step has been popped.  (On an empty trail
the C++ `trail.back()` is unreachable in any run; the model returns the
state unchanged.) -/
def DPLL.unwindLoop : List TrailStep → LiteralAssignment → LiteralAssignment × List TrailStep
  | [], σ => (σ, [])
  | s :: rest, σ =>
    let σ1 := σ.unassignVariable (toVariable s.assignment)
    if s.unit then DPLL.unwindLoop rest σ1 else (σ1, rest)

/-- `DPLL::unwind()` on the engine state. -/
def DPLL.unwind (st : DPLLState) : DPLLState :=
  let r := DPLL.unwindLoop st.trail st.assignments
  ⟨r.1, r.2⟩

/-- Ghost trace of a DPLL run.  `assignEntry` records every `assign`
call (decision when `unit = false`, propagation when `unit = true`);
`conflict` marks an evaluation that returned
`{assigned := true, value := false}` — i.e. some clause was found
unsatisfied, the event the specification calls a conflict.  `addClause`
would record the installation of a learned clause; `DPLL::step`
contains no clause-creating call, so no run ever emits it. -/
inductive LogEntry where
  | assignEntry (lit : Int) (unit : Bool)
  | conflict
  | addClause (c : List Int)
deriving Repr, DecidableEq

/-- A program point of the engine: `step` is a call of `DPLL::step()`,
`loop` is the `for (VariableID variable : variables)` loop with the
remaining portion of the variable list. -/
inductive DCall where
  | step (st : DPLLState)
  | loop (vars : List Nat) (st : DPLLState)
deriving Repr, DecidableEq

/-- The state of a `DCall`. -/
def DCall.state : DCall → DPLLState
  | .step st => st
  | .loop _ st => st

/-- One guess of the loop body of `DPLL::step`: `assign(lit, false)`
followed by `root->evaluate` with the propagating callback (each
propagated literal is pushed on the trail as a unit step).  Returns the
evaluation result, the engine state, and the ghost log of the guess
(its decision, its propagations, and a `conflict` marker when the
evaluation returned unsatisfied). -/
def dpllGuess (f : List (List Int)) (st : DPLLState) (lit : Int) :
    Assignment × DPLLState × List LogEntry :=
  let st1 := DPLL.assign st lit false
  let r := Node.evaluateRoot true st1.assignments f
  (r.1, ⟨r.2.1, (r.2.2.map fun l => TrailStep.mk l true).reverse ++ st1.trail⟩,
    LogEntry.assignEntry lit false ::
      ((r.2.2.map fun l => LogEntry.assignEntry l true) ++
        (if r.1 = { assigned := true, value := false } then [LogEntry.conflict] else [])))

/-- `DPLL::step()`, fueled (the fuel only bounds the recursion; its
sufficiency is proved below).  Returns the result `Assignment`, the
final engine state and the ghost log.

Structure of one loop iteration, exactly as in the source: guess the
variable true (`assign(toLiteral(variable,false), false)`) and
evaluate, return on satisfied; otherwise recurse into `step()`, return
on satisfied; otherwise `unwind()` and repeat the same with the guess
false; if that fails too, `unwind()` and move to the next variable. -/
def dpllGo : Nat → List (List Int) → DCall →
    Option (Assignment × DPLLState × List LogEntry)
  | 0, _, _ => none
  | fuel + 1, f, .step st =>
    let vars := Node.getUnassignedVariables f st.assignments
    if vars.isEmpty then some ({ assigned := true, value := false }, st, [])
    else dpllGo fuel f (.loop vars st)
  | _fuel + 1, _f, .loop [] st => some ({ assigned := false, value := false }, st, [])
  | fuel + 1, f, .loop (v :: rest) st =>
    let g1 := dpllGuess f st (toLiteral v false)
    if g1.1.assigned ∧ g1.1.value then some ({ assigned := true, value := true }, g1.2.1, g1.2.2)
    else
      match dpllGo fuel f (.step g1.2.1) with
      | none => none
      | some (a2, st3, log2) =>
        if a2.assigned ∧ a2.value then
          some ({ assigned := true, value := true }, st3, g1.2.2 ++ log2)
        else
          let g2 := dpllGuess f (DPLL.unwind st3) (toLiteral v true)
          if g2.1.assigned ∧ g2.1.value then
            some ({ assigned := true, value := true }, g2.2.1, g1.2.2 ++ log2 ++ g2.2.2)
          else
            match dpllGo fuel f (.step g2.2.1) with
            | none => none
            | some (a4, st7, log4) =>
              if a4.assigned ∧ a4.value then
                some ({ assigned := true, value := true }, st7, g1.2.2 ++ log2 ++ g2.2.2 ++ log4)
              else
                match dpllGo fuel f (.loop rest (DPLL.unwind st7)) with
                | none => none
                | some (a5, st9, log5) =>
                  some (a5, st9, g1.2.2 ++ log2 ++ g2.2.2 ++ log4 ++ log5)

/-! ## Solver pipeline (src/main.cpp, lines 785–828 and the exit macros) -/

/-- The observable outcome of a run: `SOLUTION_FOUND` prints the model
line and exits 0, `NO_SOLUTION` prints `UNSAT` and exits 1, a failed
`ASSURE` (malformed input) prints a message on stderr and exits 1. -/
inductive Verdict where
  | sat (model : List Int)
  | unsat
  | inputError
deriving Repr, DecidableEq

/-- The process exit code of a verdict: `exit(0)` in `SOLUTION_FOUND`,
`exit(1)` in `NO_SOLUTION`, `exit(1)` in `ASSURE`
(src/common/utils.h, lines 15–19). -/
def exitCode : Verdict → Nat
  | .sat _ => 0
  | .unsat => 1
  | .inputError => 1

/-- Whether the verdict prints the literal text `UNSAT` on stdout. -/
def printsUNSAT : Verdict → Bool
  | .unsat => true
  | _ => false

/-- Whether the verdict prints a SAT model line on stdout. -/
def printsModel : Verdict → Bool
  | .sat _ => true
  | _ => false

/-- The distinct variables occurring in the formula (used only to size
the fuel of the fueled loops). -/
def formulaVars (f : List (List Int)) : List Nat :=
  (((f.flatMap fun c => c.filter (· ≠ 0))).map toVariable).dedup

/-- Fuel for `Simplifier.runFuel`: every continued iteration assigns at
least one further variable of the formula. -/
def simplifierFuel (f : List (List Int)) : Nat := (formulaVars f).length + 2

/-- A termination measure for `dpllGo`: lexicographic in (number of
unassigned variables, program point), flattened into one `Nat`. -/
def dpllMu (f : List (List Int)) (call : DCall) : Nat :=
  let V := (formulaVars f).length
  match call with
  | .step st => (Node.getUnassignedVariables f st.assignments).length * (2 * V + 4) + (V + 2)
  | .loop vars st =>
    (Node.getUnassignedVariables f st.assignments).length * (2 * V + 4) + vars.length

/-- `Solver::run` after the Build phase: `runPhaseResult("Simplify")`,
then (on an unassigned result) `root->simplify` and
`runPhaseResult("DPLL")`, then the final `NO_SOLUTION("None found")`.
Also returns the literal store the verdict was printed from. -/
def solverPhasesFull (f : List (List Int)) (σ0 : LiteralAssignment) :
    Option (Verdict × LiteralAssignment) :=
  match Simplifier.runFuel (simplifierFuel f) σ0 f with
  | none => none
  | some (res, σ1) =>
    if res.assigned then
      if res.value then some (.sat σ1.printModel, σ1) else some (.unsat, σ1)
    else
      let f1 := Node.simplifyFormula σ1 f
      match dpllGo (dpllMu f1 (.step ⟨σ1, []⟩) + 1) f1 (.step ⟨σ1, []⟩) with
      | none => none
      | some (a, st, _log) =>
        if a.assigned ∧ a.value then some (.sat st.assignments.printModel, st.assignments)
        else some (.unsat, st.assignments)

/-- The verdicts of the phase pipeline. -/
def solverPhases (f : List (List Int)) (σ0 : LiteralAssignment) : Option Verdict :=
  (solverPhasesFull f σ0).map Prod.fst

/-- The whole program on one input: parse/build, then the phases. -/
def solverRun (input : List Char) : Option Verdict :=
  match FileParser.parseInput input with
  | .outOfFuel => none
  | .inputError => some .inputError
  | .unsatExit => some .unsat
  | .built f σ0 => solverPhases f σ0

/-! ## GraphSolver clause ingestion (src/main.cpp, lines 983–1002)

`GraphSolver::addLiteral` collects the current clause's literals in a
`std::set<LiteralID>` (`currentLiterals`, modelled as an ascending
duplicate-free list) and, on a `0` with a nonempty set, stores the set
as the next clause.  (The variable-side registration of the bipartite
index is not needed by any claim and is not modelled.) -/

/-- Insertion into an ascending duplicate-free list (`std::set::insert`). -/
def setInsert (x : Int) : List Int → List Int
  | [] => [x]
  | y :: rest =>
    if x < y then x :: y :: rest
    else if x = y then y :: rest
    else y :: setInsert x rest

/-- The clause store of `GraphSolver`: the pending literal set and the
stored clauses in id order. -/
structure GraphSolverState where
  currentLiterals : List Int
  clauses : List (List Int)
deriving Repr, DecidableEq

/-- `GraphSolver::addLiteral`. -/
def GraphSolver.addLiteral (st : GraphSolverState) (literal : Int) : GraphSolverState :=
  if literal = 0 ∧ st.currentLiterals ≠ [] then
    { currentLiterals := [], clauses := st.clauses ++ [st.currentLiterals] }
  else { st with currentLiterals := setInsert literal st.currentLiterals }

/-! ## Basic facts about the literal store -/

/-- The polarity a literal's variable must take to make the literal true. -/
def litPol (l : Int) : Bool := !(isNegated l)

theorem one_le_toVariable {l : Int} (hl : l ≠ 0) : 1 ≤ toVariable l := by
  unfold toVariable
  omega

namespace LiteralAssignment

/-- Stores the program builds always have an even bitmask length. -/
def WF (σ : LiteralAssignment) : Prop := σ.m.length % 2 = 0

theorem WF_init : LiteralAssignment.init.WF := rfl

theorem resizeList_length (l : List Bool) (n : Nat) : (resizeList l n).length = n := by
  unfold resizeList
  split
  · simp only [List.length_take]
    omega
  · simp only [List.length_append, List.length_replicate]
    omega

theorem setMaxVariable_length (σ : LiteralAssignment) (n : Nat) :
    (σ.setMaxVariable n).m.length = n * 2 := resizeList_length σ.m (n * 2)

theorem WF_setMaxVariable (σ : LiteralAssignment) (n : Nat) : (σ.setMaxVariable n).WF := by
  unfold WF
  rw [setMaxVariable_length]
  omega

theorem WF_assignVariable (σ : LiteralAssignment) (hW : σ.WF) (id : Nat) (v : Bool) :
    (σ.assignVariable id v).WF := by
  unfold WF assignVariable
  simp only [List.length_set]
  split
  · rw [setMaxVariable_length]
    omega
  · exact hW

theorem WF_unassignVariable (σ : LiteralAssignment) (hW : σ.WF) (id : Nat) :
    (σ.unassignVariable id).WF := by
  unfold WF unassignVariable
  simpa using hW

theorem WF_assignLiteral (σ : LiteralAssignment) (hW : σ.WF) (l : Int) (v : Bool) :
    (σ.assignLiteral l v).WF := WF_assignVariable σ hW _ _

theorem lookup_init (x : Nat) : LiteralAssignment.init.lookup x = none := by
  unfold init lookup getVariableAssignment getMaxVariable
  split <;> simp

theorem lookup_none_of_gt_max {σ : LiteralAssignment} {x : Nat} (h : σ.getMaxVariable < x) :
    σ.lookup x = none := by
  unfold lookup getVariableAssignment
  simp [h]

theorem le_max_of_lookup_some {σ : LiteralAssignment} {x : Nat} {b : Bool}
    (h : σ.lookup x = some b) : x ≤ σ.getMaxVariable := by
  by_contra hgt
  rw [lookup_none_of_gt_max (by omega)] at h
  exact Option.noConfusion h

theorem assigned_eq_isSome (σ : LiteralAssignment) (x : Nat) :
    (σ.getVariableAssignment x).assigned = (σ.lookup x).isSome := by
  unfold lookup
  by_cases h : (σ.getVariableAssignment x).assigned <;> simp [h]

/-- Setting one raw bit leaves the view of any variable whose two bit
indices differ untouched. -/
theorem lookup_set_other (σ : LiteralAssignment) (i : Nat) (b : Bool) (x : Nat)
    (h1 : i ≠ (x - 1) * 2) (h2 : i ≠ (x - 1) * 2 + 1) :
    (⟨σ.m.set i b⟩ : LiteralAssignment).lookup x = σ.lookup x := by
  unfold lookup getVariableAssignment getMaxVariable
  simp only [List.length_set, List.getD_eq_getElem?_getD, List.getElem?_set_ne h1,
    List.getElem?_set_ne h2]

/-- Growing the store (to at least its current size) does not change the
view of any variable. -/
theorem lookup_setMaxVariable_of_le (σ : LiteralAssignment) (hW : σ.WF) {n : Nat}
    (h : σ.getMaxVariable ≤ n) (x : Nat) (hx : 1 ≤ x) :
    (σ.setMaxVariable n).lookup x = σ.lookup x := by
  have hlen : σ.m.length = σ.getMaxVariable * 2 := by
    unfold getMaxVariable
    unfold WF at hW
    omega
  have hle : σ.m.length ≤ n * 2 := by omega
  unfold setMaxVariable resizeList
  by_cases htriv : n * 2 ≤ σ.m.length
  · have : n * 2 = σ.m.length := by omega
    simp [this]
  unfold lookup getVariableAssignment getMaxVariable
  simp only [htriv, if_false]
  simp only [List.length_append, List.length_replicate, List.getD_eq_getElem?_getD]
  have hlen2 : (σ.m ++ List.replicate (n * 2 - σ.m.length) false).length = n * 2 := by
    simp only [List.length_append, List.length_replicate]
    omega
  by_cases hinx : x ≤ σ.getMaxVariable
  · have hx2 : (x - 1) * 2 + 1 < σ.m.length := by omega
    have e1 : (σ.m ++ List.replicate (n * 2 - σ.m.length) false)[(x - 1) * 2]? =
        σ.m[(x - 1) * 2]? := by
      rw [List.getElem?_append]
      simp only [if_pos (by omega : (x - 1) * 2 < σ.m.length)]
    have e2 : (σ.m ++ List.replicate (n * 2 - σ.m.length) false)[(x - 1) * 2 + 1]? =
        σ.m[(x - 1) * 2 + 1]? := by
      rw [List.getElem?_append]
      simp only [if_pos (by omega : (x - 1) * 2 + 1 < σ.m.length)]
    rw [e1, e2]
    have hxn : ¬ (σ.m.length + (n * 2 - σ.m.length)) / 2 < x := by omega
    have hxo : ¬ σ.m.length / 2 < x := by omega
    simp only [hxn, hxo, if_false]
  · have hxo : σ.m.length / 2 < x := by omega
    simp only [hxo, if_true]
    by_cases hxn : (σ.m.length + (n * 2 - σ.m.length)) / 2 < x
    · simp only [hxn, if_true]
    · simp only [hxn, if_false]
      have hge : σ.m.length ≤ (x - 1) * 2 := by omega
      rw [List.getElem?_append_right hge]
      rw [List.getElem?_replicate]
      by_cases hr : (x - 1) * 2 - σ.m.length < n * 2 - σ.m.length
      · simp [hr]
      · simp [hr]

theorem lookup_assignVariable_self (σ : LiteralAssignment) (id : Nat) (v : Bool)
    (hid : 1 ≤ id) : (σ.assignVariable id v).lookup id = some v := by
  unfold assignVariable
  set σ1 := if id > σ.getMaxVariable then σ.setMaxVariable id else σ with hσ1
  have hlen : (id - 1) * 2 + 1 < σ1.m.length := by
    rw [hσ1]
    split
    · rw [setMaxVariable_length]
      omega
    · unfold getMaxVariable at *
      omega
  unfold lookup getVariableAssignment getMaxVariable
  simp only [List.length_set, List.getD_eq_getElem?_getD]
  have e1 : ((σ1.m.set ((id - 1) * 2) true).set ((id - 1) * 2 + 1) v)[(id - 1) * 2]? =
      some true := by
    rw [List.getElem?_set_ne (by omega)]
    exact List.getElem?_set_self (by omega)
  have e2 : ((σ1.m.set ((id - 1) * 2) true).set ((id - 1) * 2 + 1) v)[(id - 1) * 2 + 1]? =
      some v := by
    exact List.getElem?_set_self (by simpa using hlen)
  rw [e1, e2]
  have hbr : ¬ σ1.m.length / 2 < id := by omega
  simp [hbr]

theorem lookup_assignVariable_ne (σ : LiteralAssignment) (hW : σ.WF) {id x : Nat} (v : Bool)
    (hid : 1 ≤ id) (hx : 1 ≤ x) (hne : x ≠ id) :
    (σ.assignVariable id v).lookup x = σ.lookup x := by
  unfold assignVariable
  set σ1 := if id > σ.getMaxVariable then σ.setMaxVariable id else σ with hσ1
  have hs1 : σ1.lookup x = σ.lookup x := by
    rw [hσ1]
    split
    · exact lookup_setMaxVariable_of_le σ hW (by omega) x hx
    · rfl
  have h1 : (⟨σ1.m.set ((id - 1) * 2) true⟩ : LiteralAssignment).lookup x = σ1.lookup x :=
    lookup_set_other σ1 _ _ x (by omega) (by omega)
  have h2 : (⟨(σ1.m.set ((id - 1) * 2) true).set ((id - 1) * 2 + 1) v⟩ :
      LiteralAssignment).lookup x =
      (⟨σ1.m.set ((id - 1) * 2) true⟩ : LiteralAssignment).lookup x :=
    lookup_set_other _ _ _ x (by omega) (by omega)
  calc (⟨(σ1.m.set ((id - 1) * 2) true).set ((id - 1) * 2 + 1) v⟩ :
      LiteralAssignment).lookup x = _ := h2
    _ = σ1.lookup x := h1
    _ = σ.lookup x := hs1

theorem lookup_unassignVariable_self (σ : LiteralAssignment) (id : Nat) (hid : 1 ≤ id) :
    (σ.unassignVariable id).lookup id = none := by
  unfold unassignVariable lookup getVariableAssignment getMaxVariable
  simp only [List.length_set, List.getD_eq_getElem?_getD]
  by_cases h : σ.m.length / 2 < id
  · simp [h]
  · have hlt : (id - 1) * 2 < σ.m.length := by omega
    have e1 : (σ.m.set ((id - 1) * 2) false)[(id - 1) * 2]? = some false :=
      List.getElem?_set_self hlt
    simp [h, e1]

theorem lookup_unassignVariable_ne (σ : LiteralAssignment) {id x : Nat}
    (hid : 1 ≤ id) (hx : 1 ≤ x) (hne : x ≠ id) :
    (σ.unassignVariable id).lookup x = σ.lookup x :=
  lookup_set_other σ _ _ x (by omega) (by omega)

end LiteralAssignment

theorem getLiteralAssignment_assigned (σ : LiteralAssignment) (l : Int) :
    (σ.getLiteralAssignment l).assigned = (σ.lookup (toVariable l)).isSome := by
  unfold LiteralAssignment.getLiteralAssignment
  exact σ.assigned_eq_isSome (toVariable l)

theorem getLiteralAssignment_true_iff (σ : LiteralAssignment) (l : Int) :
    σ.getLiteralAssignment l = { assigned := true, value := true } ↔
      σ.lookup (toVariable l) = some (litPol l) := by
  unfold LiteralAssignment.getLiteralAssignment LiteralAssignment.lookup litPol
  rcases ha : σ.getVariableAssignment (toVariable l) with ⟨flag, value⟩
  cases flag <;> cases value <;> cases hn : isNegated l <;>
    simp [Assignment.mk.injEq]

theorem getLiteralAssignment_false_iff (σ : LiteralAssignment) (l : Int) :
    σ.getLiteralAssignment l = { assigned := true, value := false } ↔
      σ.lookup (toVariable l) = some (!litPol l) := by
  unfold LiteralAssignment.getLiteralAssignment LiteralAssignment.lookup litPol
  rcases ha : σ.getVariableAssignment (toVariable l) with ⟨flag, value⟩
  cases flag <;> cases value <;> cases hn : isNegated l <;>
    simp [Assignment.mk.injEq]

theorem lookup_assignLiteral_true_self (σ : LiteralAssignment) {l : Int} (hl : l ≠ 0) :
    (σ.assignLiteral l true).lookup (toVariable l) = some (litPol l) := by
  unfold LiteralAssignment.assignLiteral
  rw [σ.lookup_assignVariable_self (toVariable l) _ (one_le_toVariable hl)]
  cases hn : isNegated l <;> simp [litPol, hn]

theorem lookup_assignLiteral_ne (σ : LiteralAssignment) (hW : σ.WF) {l : Int} {x : Nat}
    (v : Bool) (hl : l ≠ 0) (hx : 1 ≤ x) (hne : x ≠ toVariable l) :
    (σ.assignLiteral l v).lookup x = σ.lookup x :=
  σ.lookup_assignVariable_ne hW _ (one_le_toVariable hl) hx hne

/-! ## Store extension -/

/-- `σ'` extends `σ`: every assigned variable keeps its value.  All
assignments performed during evaluation only extend the store. -/
def Ext (σ σ' : LiteralAssignment) : Prop :=
  ∀ x b, 1 ≤ x → σ.lookup x = some b → σ'.lookup x = some b

theorem Ext.refl (σ : LiteralAssignment) : Ext σ σ := fun _ _ _ h => h

theorem Ext.comp {σ1 σ2 σ3 : LiteralAssignment} (h1 : Ext σ1 σ2) (h2 : Ext σ2 σ3) :
    Ext σ1 σ3 := fun x b hx h => h2 x b hx (h1 x b hx h)

theorem Ext_assignLiteral (σ : LiteralAssignment) (hW : σ.WF) {l : Int} (hl : l ≠ 0)
    (hnew : σ.lookup (toVariable l) = none) (v : Bool) : Ext σ (σ.assignLiteral l v) := by
  intro x b hx h
  by_cases hxl : x = toVariable l
  · rw [hxl, hnew] at h
    exact Option.noConfusion h
  · rw [lookup_assignLiteral_ne σ hW v hl hx hxl]
    exact h

/-! ## Characterizing clause evaluation -/

/-- A literal of a clause that is still unassigned (and not the
`NO_LITERAL` sentinel): these are what `unassignedCount` counts. -/
def unassignedLit (σ : LiteralAssignment) (l : Int) : Bool :=
  decide (l ≠ 0) && !(σ.getLiteralAssignment l).assigned

/-- A clause is satisfied (evaluates to assigned-true with the
non-assigning callback) under a store. -/
def ClauseSat (σ : LiteralAssignment) (c : List Int) : Prop :=
  (Node.evaluateClause false σ c).1 = { assigned := true, value := true }

instance (σ : LiteralAssignment) (c : List Int) : Decidable (ClauseSat σ c) := by
  unfold ClauseSat
  infer_instance

theorem updateOr_of_start (la : Assignment) :
    updateOr { assigned := false, value := false } la =
      (if la.assigned && la.value then { assigned := true, value := true }
        else { assigned := false, value := false }) := by
  rcases la with ⟨flag, value⟩
  cases flag <;> cases value <;> rfl

theorem evalLoop_cons_zero (σ : LiteralAssignment) (rest : List Int) (s : EvalLoopState) :
    Clause.evalLoop σ (0 :: rest) s = Clause.evalLoop σ rest s := by
  simp [Clause.evalLoop]

theorem evalLoop_cons (σ : LiteralAssignment) {l : Int} (hl : l ≠ 0) (rest : List Int)
    (s : EvalLoopState) :
    Clause.evalLoop σ (l :: rest) s =
      (if shortCircuitOr (updateOr s.a (σ.getLiteralAssignment l)) then
        ({ s with a := updateOr s.a (σ.getLiteralAssignment l) }, true)
      else
        Clause.evalLoop σ rest
          (if !(σ.getLiteralAssignment l).assigned then
            { a := updateOr s.a (σ.getLiteralAssignment l), cnt := s.cnt + 1,
              unit := if s.cnt + 1 = 1 then l else s.unit }
          else { s with a := updateOr s.a (σ.getLiteralAssignment l) })) := by
  simp [Clause.evalLoop, hl]

/-- Loop invariant: starting from the `OR` default accumulator, a run
that does not short-circuit keeps the accumulator at the default, finds
no true literal, adds the number of unassigned non-sentinel literals to
the count, and (when the incoming count is zero) picks the first
unassigned literal as the unit literal. -/
theorem evalLoop_no_sc (σ : LiteralAssignment) (lits : List Int) (s : EvalLoopState)
    (hs : s.a = { assigned := false, value := false })
    (hsc : (Clause.evalLoop σ lits s).2 = false) :
    (Clause.evalLoop σ lits s).1 =
      ⟨{ assigned := false, value := false }, s.cnt + lits.countP (unassignedLit σ),
        if s.cnt = 0 then ((lits.find? (unassignedLit σ)).getD s.unit) else s.unit⟩ ∧
      ∀ l ∈ lits, l ≠ 0 → σ.getLiteralAssignment l ≠ { assigned := true, value := true } := by
  induction lits generalizing s with
  | nil =>
    rcases s with ⟨a, cnt, unit⟩
    simp only [Clause.evalLoop, List.countP_nil, List.find?_nil]
    simp only at hs
    subst hs
    simp
  | cons l rest ih =>
    by_cases hl : l = 0
    · subst hl
      rw [evalLoop_cons_zero] at hsc ⊢
      have h := ih s hs hsc
      have hc : List.countP (unassignedLit σ) ((0 : Int) :: rest) =
          List.countP (unassignedLit σ) rest := by
        rw [List.countP_cons]
        simp [unassignedLit]
      have hf : List.find? (unassignedLit σ) ((0 : Int) :: rest) =
          List.find? (unassignedLit σ) rest := by
        rw [List.find?_cons]
        simp [unassignedLit]
      refine ⟨?_, ?_⟩
      · rw [h.1, hc, hf]
      · intro x hx hx0
        rcases List.mem_cons.mp hx with h1 | h1
        · omega
        · exact h.2 x h1 hx0
    · by_cases htrue : σ.getLiteralAssignment l = { assigned := true, value := true }
      · rw [evalLoop_cons σ hl] at hsc
        rw [htrue, hs, updateOr_of_start] at hsc
        simp [shortCircuitOr] at hsc
      · have ha1 : updateOr s.a (σ.getLiteralAssignment l) =
            { assigned := false, value := false } := by
          rw [hs, updateOr_of_start]
          rcases hla : σ.getLiteralAssignment l with ⟨flag, value⟩
          cases flag <;> cases value <;> simp_all
        rw [evalLoop_cons σ hl, ha1] at hsc ⊢
        rw [if_neg (by simp [shortCircuitOr])] at hsc ⊢
        by_cases hass : (σ.getLiteralAssignment l).assigned
        · -- assigned literal: the accumulator state is unchanged
          rw [hass] at hsc ⊢
          rw [if_neg (by simp)] at hsc ⊢
          have hrec := ih { s with a := { assigned := false, value := false } } rfl hsc
          have hu : unassignedLit σ l = false := by
            simp [unassignedLit, hass]
          refine ⟨?_, ?_⟩
          · rw [hrec.1]
            rw [List.countP_cons, List.find?_cons]
            simp [hu]
          · intro x hx hx0
            rcases List.mem_cons.mp hx with h1 | h1
            · rw [h1]; exact htrue
            · exact hrec.2 x h1 hx0
        · -- unassigned literal: count it
          rw [Bool.not_eq_true] at hass
          rw [hass] at hsc ⊢
          rw [if_pos (by simp)] at hsc ⊢
          have hrec := ih ⟨{ assigned := false, value := false }, s.cnt + 1,
            if s.cnt + 1 = 1 then l else s.unit⟩ rfl hsc
          have hu : unassignedLit σ l = true := by
            simp [unassignedLit, hass, hl]
          refine ⟨?_, ?_⟩
          · rw [hrec.1]
            rw [List.countP_cons, List.find?_cons]
            simp only [hu, if_true, EvalLoopState.mk.injEq]
            refine ⟨trivial, by omega, ?_⟩
            by_cases hc : s.cnt = 0
            · simp [hc]
            · rw [if_neg (show ¬(s.cnt + 1 = 1) by omega), if_neg hc,
                if_neg (show ¬(s.cnt + 1 = 0) by omega)]
          · intro x hx hx0
            rcases List.mem_cons.mp hx with h1 | h1
            · rw [h1]; exact htrue
            · exact hrec.2 x h1 hx0

/-- A true literal short-circuits the loop with a true accumulator. -/
theorem evalLoop_sc_of_true (σ : LiteralAssignment) (lits : List Int) (s : EvalLoopState)
    (hs : s.a = { assigned := false, value := false })
    (h : ∃ l ∈ lits, l ≠ 0 ∧ σ.getLiteralAssignment l = { assigned := true, value := true }) :
    (Clause.evalLoop σ lits s).2 = true ∧
      (Clause.evalLoop σ lits s).1.a = { assigned := true, value := true } := by
  induction lits generalizing s with
  | nil => rcases h with ⟨l, hl, _⟩; exact absurd hl (List.not_mem_nil l)
  | cons l rest ih =>
    by_cases hl : l = 0
    · subst hl
      rw [evalLoop_cons_zero]
      refine ih s hs ?_
      rcases h with ⟨x, hx, hx0, hxt⟩
      rcases List.mem_cons.mp hx with h1 | h1
      · omega
      · exact ⟨x, h1, hx0, hxt⟩
    · by_cases htrue : σ.getLiteralAssignment l = { assigned := true, value := true }
      · rw [evalLoop_cons σ hl]
        rw [htrue, hs, updateOr_of_start]
        simp [shortCircuitOr]
      · have ha1 : updateOr s.a (σ.getLiteralAssignment l) =
            { assigned := false, value := false } := by
          rw [hs, updateOr_of_start]
          rcases hla : σ.getLiteralAssignment l with ⟨flag, value⟩
          cases flag <;> cases value <;> simp_all
        rw [evalLoop_cons σ hl, ha1]
        rw [if_neg (by simp [shortCircuitOr])]
        have hr : ∃ x ∈ rest, x ≠ 0 ∧
            σ.getLiteralAssignment x = { assigned := true, value := true } := by
          rcases h with ⟨x, hx, hx0, hxt⟩
          rcases List.mem_cons.mp hx with h1 | h1
          · exact absurd hxt (h1 ▸ htrue)
          · exact ⟨x, h1, hx0, hxt⟩
        by_cases hass : (σ.getLiteralAssignment l).assigned
        · rw [hass, if_neg (by simp)]
          exact ih _ rfl hr
        · rw [Bool.not_eq_true] at hass
          rw [hass, if_pos (by simp)]
          exact ih _ rfl hr

/-- A short-circuited loop found a true literal. -/
theorem evalLoop_sc_true (σ : LiteralAssignment) (lits : List Int) (s : EvalLoopState)
    (hs : s.a = { assigned := false, value := false })
    (hsc : (Clause.evalLoop σ lits s).2 = true) :
    (Clause.evalLoop σ lits s).1.a = { assigned := true, value := true } ∧
      ∃ l ∈ lits, l ≠ 0 ∧ σ.getLiteralAssignment l = { assigned := true, value := true } := by
  induction lits generalizing s with
  | nil =>
    rcases s with ⟨a, cnt, unit⟩
    simp [Clause.evalLoop] at hsc
  | cons l rest ih =>
    by_cases hl : l = 0
    · subst hl
      rw [evalLoop_cons_zero] at hsc ⊢
      rcases ih s hs hsc with ⟨h1, x, hx, hx0, hxt⟩
      exact ⟨h1, x, List.mem_cons_of_mem _ hx, hx0, hxt⟩
    · by_cases htrue : σ.getLiteralAssignment l = { assigned := true, value := true }
      · rw [evalLoop_cons σ hl, htrue, hs, updateOr_of_start]
        rw [if_pos (by simp [shortCircuitOr])]
        exact ⟨by simp, l, List.mem_cons_self l rest, hl, htrue⟩
      · have ha1 : updateOr s.a (σ.getLiteralAssignment l) =
            { assigned := false, value := false } := by
          rw [hs, updateOr_of_start]
          rcases hla : σ.getLiteralAssignment l with ⟨flag, value⟩
          cases flag <;> cases value <;> simp_all
        rw [evalLoop_cons σ hl, ha1] at hsc ⊢
        rw [if_neg (by simp [shortCircuitOr])] at hsc ⊢
        by_cases hass : (σ.getLiteralAssignment l).assigned
        · rw [hass, if_neg (by simp)] at hsc ⊢
          rcases ih _ rfl hsc with ⟨h1, x, hx, hx0, hxt⟩
          exact ⟨h1, x, List.mem_cons_of_mem _ hx, hx0, hxt⟩
        · rw [Bool.not_eq_true] at hass
          rw [hass, if_pos (by simp)] at hsc ⊢
          rcases ih _ rfl hsc with ⟨h1, x, hx, hx0, hxt⟩
          exact ⟨h1, x, List.mem_cons_of_mem _ hx, hx0, hxt⟩

/-- A clause evaluates to true (with the non-assigning callback) exactly
when it contains a literal that is assigned true. -/
theorem ClauseSat_iff (σ : LiteralAssignment) (c : List Int) :
    ClauseSat σ c ↔
      ∃ l ∈ c, l ≠ 0 ∧ σ.getLiteralAssignment l = { assigned := true, value := true } := by
  unfold ClauseSat Node.evaluateClause
  rcases hr : Clause.evalLoop σ c ⟨{ assigned := false, value := false }, 0, 0⟩ with ⟨s, sc⟩
  cases sc
  · have h := evalLoop_no_sc σ c ⟨{ assigned := false, value := false }, 0, 0⟩ rfl
      (by rw [hr])
    rw [hr] at h
    have hseq := show s = _ from h.1
    have hsa : s.a = { assigned := false, value := false } := by rw [hseq]
    constructor
    · intro hres
      exfalso
      simp only [false_and, if_false, and_false] at hres
      by_cases hc : s.cnt = 0
      · rw [if_pos hc, hsa] at hres
        exact absurd hres (by simp)
      · rw [if_neg hc, hsa] at hres
        exact absurd hres (by simp)
    · intro hex
      have hh := evalLoop_sc_of_true σ c ⟨{ assigned := false, value := false }, 0, 0⟩ rfl hex
      rw [hr] at hh
      exact absurd hh.1 (by simp)
  · have hh := evalLoop_sc_true σ c ⟨{ assigned := false, value := false }, 0, 0⟩ rfl
      (by rw [hr])
    rw [hr] at hh
    constructor
    · intro _
      exact hh.2
    · intro _
      exact hh.1

/-- The output of clause evaluation: either nothing was propagated and
the store is unchanged, or the callback was invoked on exactly one
literal of the clause, previously unassigned, which is now assigned
true, and the clause reported satisfied. -/
theorem evaluateClause_out (p : Bool) (σ : LiteralAssignment) (c : List Int) :
    (Node.evaluateClause p σ c).2 = (σ, []) ∨
      (p = true ∧ ∃ l, (Node.evaluateClause p σ c).2 = (σ.assignLiteral l true, [l]) ∧
        l ∈ c ∧ l ≠ 0 ∧ σ.lookup (toVariable l) = none ∧
        (Node.evaluateClause p σ c).1 = { assigned := true, value := true }) := by
  unfold Node.evaluateClause
  rcases hr : Clause.evalLoop σ c ⟨{ assigned := false, value := false }, 0, 0⟩ with ⟨s, sc⟩
  cases sc
  · have h := evalLoop_no_sc σ c ⟨{ assigned := false, value := false }, 0, 0⟩ rfl
      (by rw [hr])
    rw [hr] at h
    by_cases hcp : s.cnt = 1 ∧ p = true
    · right
      refine ⟨hcp.2, s.unit, ?_⟩
      have hseq := show s = _ from h.1
      have hcnt : s.cnt = 0 + List.countP (unassignedLit σ) c := by rw [hseq]
      have hk : List.countP (unassignedLit σ) c = 1 := by omega
      have hfind : ∃ u, List.find? (unassignedLit σ) c = some u := by
        have hex : ∃ l ∈ c, unassignedLit σ l := by
          by_contra hno
          push_neg at hno
          have : List.countP (unassignedLit σ) c = 0 := by
            rw [List.countP_eq_zero]
            intro a ha
            exact hno a ha
          omega
        rcases hex with ⟨u, hu, hup⟩
        rcases List.find?_isSome.mpr ⟨u, hu, hup⟩ with h1
        exact Option.isSome_iff_exists.mp h1
      rcases hfind with ⟨u, hu⟩
      have hunit : s.unit = u := by
        rw [hseq]
        simp [hu]
      have humem : u ∈ c := List.mem_of_find?_eq_some hu
      have hupred : unassignedLit σ u = true := List.find?_some hu
      have hu0 : u ≠ 0 := by
        unfold unassignedLit at hupred
        simp at hupred
        exact hupred.1
      have hunone : σ.lookup (toVariable u) = none := by
        unfold unassignedLit at hupred
        simp at hupred
        have := hupred.2
        rw [getLiteralAssignment_assigned] at this
        exact Option.not_isSome_iff_eq_none.mp (by simp [this])
      dsimp only
      rw [if_pos hcp, hunit]
      exact ⟨rfl, humem, hu0, hunone, rfl⟩
    · left
      dsimp only
      rw [if_neg hcp]
  · left
    rfl

/-- All (non-sentinel) literals assigned false: the clause evaluates to
`{assigned := true, value := false}` with no propagation.  (This is the
state the specification describes as the clause "becoming empty".) -/
theorem evaluateClause_allFalse (p : Bool) (σ : LiteralAssignment) (c : List Int)
    (h : ∀ l ∈ c, l ≠ 0 → σ.getLiteralAssignment l = { assigned := true, value := false }) :
    Node.evaluateClause p σ c = ({ assigned := true, value := false }, σ, []) := by
  unfold Node.evaluateClause
  rcases hr : Clause.evalLoop σ c ⟨{ assigned := false, value := false }, 0, 0⟩ with ⟨s, sc⟩
  cases sc
  · have hno := evalLoop_no_sc σ c ⟨{ assigned := false, value := false }, 0, 0⟩ rfl
      (by rw [hr])
    rw [hr] at hno
    have hk : List.countP (unassignedLit σ) c = 0 := by
      rw [List.countP_eq_zero]
      intro l hl
      by_cases hl0 : l = 0
      · simp [unassignedLit, hl0]
      · have := h l hl hl0
        simp [unassignedLit, hl0, this]
    have hseq := show s = _ from hno.1
    have hcnt : s.cnt = 0 := by
      have : s.cnt = 0 + List.countP (unassignedLit σ) c := by rw [hseq]
      omega
    have hsa : s.a = { assigned := false, value := false } := by rw [hseq]
    dsimp only
    rw [if_neg (by simp [hcnt]), if_pos hcnt, hsa]
  · exfalso
    have hh := evalLoop_sc_true σ c ⟨{ assigned := false, value := false }, 0, 0⟩ rfl
      (by rw [hr])
    rcases hh.2 with ⟨l, hl, hl0, hlt⟩
    rw [h l hl hl0] at hlt
    exact absurd hlt (by simp)

/-- A clause that reports satisfied is satisfied under its own output
store. -/
theorem evaluateClause_sat_out (p : Bool) (σ : LiteralAssignment) (c : List Int)
    (h : (Node.evaluateClause p σ c).1 = { assigned := true, value := true }) :
    ClauseSat (Node.evaluateClause p σ c).2.1 c := by
  rcases evaluateClause_out p σ c with hout | ⟨hp, l, hout, hmem, hl0, hnone, _⟩
  · -- store unchanged: the true result came from a short-circuit
    rw [ClauseSat_iff]
    have hσ : (Node.evaluateClause p σ c).2.1 = σ := by rw [hout]
    rw [hσ]
    revert h
    unfold Node.evaluateClause
    rcases hr : Clause.evalLoop σ c ⟨{ assigned := false, value := false }, 0, 0⟩ with ⟨s, sc⟩
    cases sc
    · intro hres
      exfalso
      have hno := evalLoop_no_sc σ c ⟨{ assigned := false, value := false }, 0, 0⟩ rfl
        (by rw [hr])
      rw [hr] at hno
      have hseq := show s = _ from hno.1
      have hsa : s.a = { assigned := false, value := false } := by rw [hseq]
      dsimp only at hres
      by_cases hcp : s.cnt = 1 ∧ p = true
      · -- the propagating branch changes the store, contradicting hout
        revert hout
        unfold Node.evaluateClause
        rw [hr]
        dsimp only
        rw [if_pos hcp]
        intro hout
        have : ([s.unit] : List Int) = [] := congrArg Prod.snd hout
        exact absurd this (by simp)
      · rw [if_neg hcp] at hres
        by_cases hc : s.cnt = 0
        · rw [if_pos hc, hsa] at hres
          exact absurd hres (by simp)
        · rw [if_neg hc, hsa] at hres
          exact absurd hres (by simp)
    · intro _
      have hh := evalLoop_sc_true σ c ⟨{ assigned := false, value := false }, 0, 0⟩ rfl
        (by rw [hr])
      exact hh.2
  · -- the unit literal was assigned true
    rw [ClauseSat_iff]
    have hσ : (Node.evaluateClause p σ c).2.1 = σ.assignLiteral l true := by rw [hout]
    rw [hσ]
    refine ⟨l, hmem, hl0, ?_⟩
    rw [getLiteralAssignment_true_iff]
    exact lookup_assignLiteral_true_self σ hl0

/-- An unassigned result touches nothing: no propagation, same store. -/
theorem evaluateClause_unassigned (p : Bool) (σ : LiteralAssignment) (c : List Int)
    (h : (Node.evaluateClause p σ c).1.assigned = false) :
    (Node.evaluateClause p σ c).2 = (σ, []) := by
  rcases evaluateClause_out p σ c with hout | ⟨_, l, _, _, _, _, hres⟩
  · exact hout
  · rw [hres] at h
    exact absurd h (by simp)

/-- When the propagating evaluation propagated nothing, the default
(non-assigning) evaluation computes the same result. -/
theorem evaluateClause_noprop (σ : LiteralAssignment) (c : List Int)
    (h : (Node.evaluateClause true σ c).2.2 = []) :
    Node.evaluateClause false σ c = Node.evaluateClause true σ c := by
  revert h
  unfold Node.evaluateClause
  rcases hr : Clause.evalLoop σ c ⟨{ assigned := false, value := false }, 0, 0⟩ with ⟨s, sc⟩
  cases sc
  · intro h
    dsimp only at h ⊢
    by_cases hcp : s.cnt = 1
    · rw [if_pos ⟨hcp, rfl⟩] at h
      exact absurd h (by simp)
    · rw [if_neg (show ¬(s.cnt = 1 ∧ false = true) by simp),
        if_neg (show ¬(s.cnt = 1 ∧ true = true) by simp [hcp])]
  · intro _
    rfl

/-- Clause satisfaction is monotone under store extension. -/
theorem ClauseSat.mono {σ σ' : LiteralAssignment} (hE : Ext σ σ') {c : List Int}
    (h : ClauseSat σ c) : ClauseSat σ' c := by
  rw [ClauseSat_iff] at h ⊢
  rcases h with ⟨l, hl, hl0, hlt⟩
  refine ⟨l, hl, hl0, ?_⟩
  rw [getLiteralAssignment_true_iff] at hlt ⊢
  exact hE _ _ (one_le_toVariable hl0) hlt

/-! ## The propagation trace of an evaluation -/

/-- `PropsOK σ props σfin`: the callback assigned the literals of
`props` in order, each to a previously-unassigned variable, turning `σ`
into `σfin`. -/
inductive PropsOK : LiteralAssignment → List Int → LiteralAssignment → Prop where
  | nil (σ : LiteralAssignment) : PropsOK σ [] σ
  | cons (σ : LiteralAssignment) (l : Int) (rest : List Int) (σfin : LiteralAssignment)
      (hl : l ≠ 0) (hnew : σ.lookup (toVariable l) = none)
      (h : PropsOK (σ.assignLiteral l true) rest σfin) : PropsOK σ (l :: rest) σfin

theorem PropsOK.nil_inv {σ σfin : LiteralAssignment} (h : PropsOK σ [] σfin) : σfin = σ := by
  cases h
  rfl

theorem PropsOK.append {σ σmid σfin : LiteralAssignment} {pr1 pr2 : List Int}
    (h1 : PropsOK σ pr1 σmid) (h2 : PropsOK σmid pr2 σfin) : PropsOK σ (pr1 ++ pr2) σfin := by
  induction h1 with
  | nil => exact h2
  | cons σ l rest σmid hl hnew _ ih => exact .cons σ l _ σfin hl hnew (ih h2)

theorem PropsOK.ext {σ σfin : LiteralAssignment} {pr : List Int} (hW : σ.WF)
    (h : PropsOK σ pr σfin) : Ext σ σfin ∧ σfin.WF := by
  induction h with
  | nil => exact ⟨Ext.refl _, hW⟩
  | cons σ l rest σfin hl hnew _ ih =>
    have hW1 : (σ.assignLiteral l true).WF := σ.WF_assignLiteral hW l true
    have hE1 : Ext σ (σ.assignLiteral l true) := Ext_assignLiteral σ hW hl hnew true
    rcases ih hW1 with ⟨hE2, hW2⟩
    exact ⟨hE1.comp hE2, hW2⟩

theorem PropsOK.nonzero {σ σfin : LiteralAssignment} {pr : List Int}
    (h : PropsOK σ pr σfin) : ∀ l ∈ pr, l ≠ 0 := by
  induction h with
  | nil => intro l hl; exact absurd hl (List.not_mem_nil l)
  | cons σ l rest σfin hl hnew _ ih =>
    intro x hx
    rcases List.mem_cons.mp hx with h1 | h1
    · rw [h1]; exact hl
    · exact ih x h1

theorem PropsOK.start_none {σ σfin : LiteralAssignment} {pr : List Int} (hW : σ.WF)
    (h : PropsOK σ pr σfin) : ∀ l ∈ pr, σ.lookup (toVariable l) = none := by
  induction h with
  | nil => intro l hl; exact absurd hl (List.not_mem_nil l)
  | cons σ l rest σfin hl hnew hrec ih =>
    intro x hx
    rcases List.mem_cons.mp hx with h1 | h1
    · rw [h1]; exact hnew
    · have hW1 : (σ.assignLiteral l true).WF := σ.WF_assignLiteral hW l true
      have h2 := ih hW1 x h1
      by_contra hne
      rcases Option.ne_none_iff_exists.mp hne with ⟨b, hb⟩
      have hx0 : x ≠ 0 := hrec.nonzero x h1
      have := Ext_assignLiteral σ hW hl hnew true (toVariable x) b
        (one_le_toVariable hx0) hb.symm
      rw [h2] at this
      exact Option.noConfusion this

theorem PropsOK.vars_nodup {σ σfin : LiteralAssignment} {pr : List Int} (hW : σ.WF)
    (h : PropsOK σ pr σfin) : (pr.map toVariable).Nodup := by
  induction h with
  | nil => exact List.nodup_nil
  | cons σ l rest σfin hl hnew hrec ih =>
    have hW1 : (σ.assignLiteral l true).WF := σ.WF_assignLiteral hW l true
    rw [List.map_cons, List.nodup_cons]
    refine ⟨?_, ih hW1⟩
    intro hmem
    rcases List.mem_map.mp hmem with ⟨x, hx, hvx⟩
    have h2 := hrec.start_none hW1 x hx
    rw [hvx] at h2
    rw [lookup_assignLiteral_true_self σ hl] at h2
    exact Option.noConfusion h2

theorem PropsOK.lookup_preserved {σ σfin : LiteralAssignment} {pr : List Int} (hW : σ.WF)
    (h : PropsOK σ pr σfin) : ∀ x, 1 ≤ x → x ∉ pr.map toVariable →
      σfin.lookup x = σ.lookup x := by
  induction h with
  | nil => intro x _ _; rfl
  | cons σ l rest σfin hl hnew _ ih =>
    intro x hx hmem
    rw [List.map_cons] at hmem
    have hxl : x ≠ toVariable l := by
      intro hc
      exact hmem (hc ▸ List.mem_cons_self _ _)
    have hW1 : (σ.assignLiteral l true).WF := σ.WF_assignLiteral hW l true
    rw [ih hW1 x hx (fun hc => hmem (List.mem_cons_of_mem _ hc))]
    exact lookup_assignLiteral_ne σ hW true hl hx hxl

/-- The clause evaluation's propagated literals form a valid trace. -/
theorem evaluateClause_propsOK (p : Bool) (σ : LiteralAssignment) (c : List Int) :
    PropsOK σ (Node.evaluateClause p σ c).2.2 (Node.evaluateClause p σ c).2.1 := by
  rcases evaluateClause_out p σ c with hout | ⟨_, l, hout, _, hl0, hnone, _⟩
  · rw [show (Node.evaluateClause p σ c).2.2 = [] by rw [hout],
      show (Node.evaluateClause p σ c).2.1 = σ by rw [hout]]
    exact .nil σ
  · rw [show (Node.evaluateClause p σ c).2.2 = [l] by rw [hout],
      show (Node.evaluateClause p σ c).2.1 = σ.assignLiteral l true by rw [hout]]
    exact .cons σ l [] _ hl0 hnone (.nil _)

/-! ## Root (AND node) evaluation lemmas -/

theorem updateAnd_eq_true {a ca : Assignment}
    (h : updateAnd a ca = { assigned := true, value := true }) :
    a = { assigned := true, value := true } ∧ ca = { assigned := true, value := true } := by
  unfold updateAnd at h
  rcases ca with ⟨cf, cv⟩
  rcases a with ⟨af, av⟩
  cases cf <;> cases cv <;> cases af <;> cases av <;> simp_all

theorem eq_of_shortCircuitAnd {x : Assignment} (h : shortCircuitAnd x = true) :
    x = { assigned := true, value := false } := by
  rcases x with ⟨flag, value⟩
  unfold shortCircuitAnd at h
  cases flag <;> cases value <;> simp_all

theorem updateAnd_false_child (a : Assignment) :
    updateAnd a { assigned := true, value := false } = { assigned := true, value := false } :=
  rfl

theorem rootLoop_cons (p : Bool) (σ : LiteralAssignment) (a : Assignment) (c : List Int)
    (rest : List (List Int)) :
    Node.rootLoop p σ a (c :: rest) =
      (if shortCircuitAnd (updateAnd a (Node.evaluateClause p σ c).1) then
        (updateAnd a (Node.evaluateClause p σ c).1, (Node.evaluateClause p σ c).2.1,
          (Node.evaluateClause p σ c).2.2)
      else
        ((Node.rootLoop p (Node.evaluateClause p σ c).2.1
            (updateAnd a (Node.evaluateClause p σ c).1) rest).1,
          (Node.rootLoop p (Node.evaluateClause p σ c).2.1
            (updateAnd a (Node.evaluateClause p σ c).1) rest).2.1,
          (Node.evaluateClause p σ c).2.2 ++
            (Node.rootLoop p (Node.evaluateClause p σ c).2.1
              (updateAnd a (Node.evaluateClause p σ c).1) rest).2.2)) := by
  simp only [Node.rootLoop]

/-- The root loop's propagated literals form a valid trace. -/
theorem rootLoop_propsOK (p : Bool) (f : List (List Int)) :
    ∀ (σ : LiteralAssignment) (a : Assignment),
      PropsOK σ (Node.rootLoop p σ a f).2.2 (Node.rootLoop p σ a f).2.1 := by
  induction f with
  | nil => intro σ a; exact .nil σ
  | cons c rest ih =>
    intro σ a
    rw [rootLoop_cons]
    by_cases hsc : shortCircuitAnd (updateAnd a (Node.evaluateClause p σ c).1)
    · rw [if_pos hsc]
      exact evaluateClause_propsOK p σ c
    · rw [if_neg hsc]
      exact (evaluateClause_propsOK p σ c).append (ih _ _)

theorem Node.evaluateRoot_propsOK (p : Bool) (f : List (List Int)) (σ : LiteralAssignment) :
    PropsOK σ (Node.evaluateRoot p σ f).2.2 (Node.evaluateRoot p σ f).2.1 :=
  rootLoop_propsOK p f σ _

/-- A true result forces a true accumulator at entry. -/
theorem rootLoop_sat_start (p : Bool) (f : List (List Int)) :
    ∀ (σ : LiteralAssignment) (a : Assignment),
      (Node.rootLoop p σ a f).1 = { assigned := true, value := true } →
      a = { assigned := true, value := true } := by
  induction f with
  | nil => intro σ a h; exact h
  | cons c rest ih =>
    intro σ a h
    rw [rootLoop_cons] at h
    by_cases hsc : shortCircuitAnd (updateAnd a (Node.evaluateClause p σ c).1)
    · rw [if_pos hsc] at h
      dsimp only at h
      rw [h] at hsc
      exact absurd hsc (by simp [shortCircuitAnd])
    · rw [if_neg hsc] at h
      dsimp only at h
      have h2 := ih _ _ h
      exact (updateAnd_eq_true h2).1

/-- A true root result makes every clause satisfied under the final
store. -/
theorem rootLoop_sat_all (p : Bool) (f : List (List Int)) :
    ∀ (σ : LiteralAssignment) (a : Assignment), σ.WF →
      (Node.rootLoop p σ a f).1 = { assigned := true, value := true } →
      ∀ c ∈ f, ClauseSat (Node.rootLoop p σ a f).2.1 c := by
  induction f with
  | nil => intro σ a _ _ c hc; exact absurd hc (List.not_mem_nil c)
  | cons c0 rest ih =>
    intro σ a hW h c hc
    rw [rootLoop_cons] at h ⊢
    by_cases hsc : shortCircuitAnd (updateAnd a (Node.evaluateClause p σ c0).1)
    · rw [if_pos hsc] at h
      dsimp only at h
      rw [h] at hsc
      exact absurd hsc (by simp [shortCircuitAnd])
    · rw [if_neg hsc] at h ⊢
      dsimp only at h
      have hrest := h
      have ha1 := rootLoop_sat_start p rest _ _ hrest
      have hc0sat : (Node.evaluateClause p σ c0).1 = { assigned := true, value := true } :=
        (updateAnd_eq_true ha1).2
      have hWmid : (Node.evaluateClause p σ c0).2.1.WF :=
        ((evaluateClause_propsOK p σ c0).ext hW).2
      rcases List.mem_cons.mp hc with h1 | h1
      · -- the head clause: satisfied under its own output, extended
        subst h1
        have hsat := evaluateClause_sat_out p σ c hc0sat
        have hEfin : Ext (Node.evaluateClause p σ c).2.1
            (Node.rootLoop p (Node.evaluateClause p σ c).2.1
              (updateAnd a (Node.evaluateClause p σ c).1) rest).2.1 :=
          ((rootLoop_propsOK p rest _ _).ext hWmid).1
        exact hsat.mono hEfin
      · exact ih _ _ hWmid hrest c h1

theorem evaluateClause_empty_props (p : Bool) (σ : LiteralAssignment) (c : List Int)
    (h : (Node.evaluateClause p σ c).2.2 = []) : (Node.evaluateClause p σ c).2.1 = σ := by
  rcases evaluateClause_out p σ c with hout | ⟨_, l, hout, _⟩
  · rw [hout]
  · rw [show (Node.evaluateClause p σ c).2.2 = [l] by rw [hout]] at h
    exact absurd h (by simp)

/-- With no propagation at all, a fully-falsified clause in the list
forces the root result to unsatisfied. -/
theorem rootLoop_false_of_allFalse (p : Bool) (f : List (List Int)) :
    ∀ (σ : LiteralAssignment) (a : Assignment),
      shortCircuitAnd a = false →
      (Node.rootLoop p σ a f).2.2 = [] →
      (∃ c ∈ f, ∀ l ∈ c, l ≠ 0 →
        σ.getLiteralAssignment l = { assigned := true, value := false }) →
      (Node.rootLoop p σ a f).1 = { assigned := true, value := false } := by
  induction f with
  | nil => intro σ a _ _ hex; rcases hex with ⟨c, hc, _⟩; exact absurd hc (List.not_mem_nil c)
  | cons c0 rest ih =>
    intro σ a ha hpr hex
    rw [rootLoop_cons] at hpr ⊢
    by_cases hsc : shortCircuitAnd (updateAnd a (Node.evaluateClause p σ c0).1)
    · rw [if_pos hsc] at hpr ⊢
      -- a short circuit of the AND yields an assigned-false accumulator
      dsimp only
      exact eq_of_shortCircuitAnd hsc
    · rw [if_neg hsc] at hpr ⊢
      have hpr1 : (Node.evaluateClause p σ c0).2.2 = [] := by
        rcases List.append_eq_nil.mp hpr with ⟨h1, _⟩
        exact h1
      have hpr2 : (Node.rootLoop p (Node.evaluateClause p σ c0).2.1
          (updateAnd a (Node.evaluateClause p σ c0).1) rest).2.2 = [] := by
        rcases List.append_eq_nil.mp hpr with ⟨_, h2⟩
        exact h2
      have hσeq : (Node.evaluateClause p σ c0).2.1 = σ :=
        evaluateClause_empty_props p σ c0 hpr1
      rcases hex with ⟨c, hc, hcall⟩
      rcases List.mem_cons.mp hc with h1 | h1
      · -- the head clause itself is fully false: contradiction with no SC
        exfalso
        subst h1
        have hev := evaluateClause_allFalse p σ c hcall
        rw [show (Node.evaluateClause p σ c).1 = { assigned := true, value := false } by
          rw [hev], updateAnd_false_child] at hsc
        exact hsc rfl
      · -- the falsified clause sits in the tail
        dsimp only
        rw [hσeq]
        refine ih σ _ ?_ (by rw [hσeq] at hpr2; exact hpr2) ⟨c, h1, hcall⟩
        -- the new accumulator does not short-circuit (that is hsc)
        rw [Bool.eq_false_iff]
        intro hcon
        exact hsc hcon

/-- An unassigned result with no propagation exhibits an unassigned
clause (under the unchanged store). -/
theorem rootLoop_unassigned (p : Bool) (f : List (List Int)) :
    ∀ (σ : LiteralAssignment) (a : Assignment),
      (Node.rootLoop p σ a f).2.2 = [] →
      (Node.rootLoop p σ a f).1.assigned = false →
      a.assigned = false ∨ ∃ c ∈ f, (Node.evaluateClause p σ c).1.assigned = false := by
  induction f with
  | nil => intro σ a _ h; exact .inl h
  | cons c0 rest ih =>
    intro σ a hpr h
    rw [rootLoop_cons] at hpr h
    by_cases hsc : shortCircuitAnd (updateAnd a (Node.evaluateClause p σ c0).1)
    · rw [if_pos hsc] at h
      unfold shortCircuitAnd at hsc
      simp only at h
      rw [h] at hsc
      exact absurd hsc (by simp)
    · rw [if_neg hsc] at hpr h
      have hpr1 : (Node.evaluateClause p σ c0).2.2 = [] := (List.append_eq_nil.mp hpr).1
      have hpr2 := (List.append_eq_nil.mp hpr).2
      have hσeq : (Node.evaluateClause p σ c0).2.1 = σ :=
        evaluateClause_empty_props p σ c0 hpr1
      rw [hσeq] at hpr2 h
      rcases ih σ _ hpr2 h with h1 | ⟨c, hc, hcu⟩
      · -- the new accumulator is unassigned: from the head clause or from a
        rcases hca : (Node.evaluateClause p σ c0).1 with ⟨cf, cv⟩
        cases cf
        · exact .inr ⟨c0, List.mem_cons_self _ _, by rw [hca]⟩
        · left
          rw [hca] at h1
          rcases a with ⟨af, av⟩
          unfold updateAnd at h1
          cases av <;> cases cv <;> simp_all
      · exact .inr ⟨c, List.mem_cons_of_mem _ hc, hcu⟩

/-! ## Literal helpers and the agreement relation -/

theorem toVariable_toLiteral (v : Nat) (b : Bool) : toVariable (toLiteral v b) = v := by
  unfold toVariable toLiteral
  cases b <;> simp

theorem toLiteral_ne_zero {v : Nat} (hv : 1 ≤ v) (b : Bool) : toLiteral v b ≠ 0 := by
  unfold toLiteral
  cases b
  · simp only [if_neg Bool.false_ne_true]
    omega
  · simp only [if_pos rfl, neg_eq_zero]
    omega

theorem litPol_toLiteral {v : Nat} (hv : 1 ≤ v) (b : Bool) : litPol (toLiteral v b) = !b := by
  unfold litPol toLiteral isNegated
  cases b
  · rw [if_neg Bool.false_ne_true]
    have hnn : ¬((v : Int) < 0) := by omega
    simp [hnn]
  · rw [if_pos rfl]
    have hn : -(v : Int) < 0 := by omega
    simp [hn]

/-- Two stores agree when every variable's abstract assignment matches.
Distinct concrete bitmasks can agree: `unassignVariable` leaves the
value bit behind and never shrinks the mask. -/
def Agree (σ1 σ2 : LiteralAssignment) : Prop :=
  ∀ x, 1 ≤ x → σ1.lookup x = σ2.lookup x

theorem Agree.self (σ : LiteralAssignment) : Agree σ σ := fun _ _ => Eq.refl _

theorem Agree.symm {σ1 σ2 : LiteralAssignment} (h : Agree σ1 σ2) : Agree σ2 σ1 :=
  fun x hx => (h x hx).symm

theorem Agree.trans {σ1 σ2 σ3 : LiteralAssignment} (h1 : Agree σ1 σ2) (h2 : Agree σ2 σ3) :
    Agree σ1 σ3 := fun x hx => (h1 x hx).trans (h2 x hx)

/-! ## The unassigned-variable list -/

theorem mem_getUnassignedVariables {f : List (List Int)} {σ : LiteralAssignment} {v : Nat} :
    v ∈ Node.getUnassignedVariables f σ ↔
      (∃ c ∈ f, ∃ l ∈ c, l ≠ 0 ∧ toVariable l = v) ∧ σ.lookup v = none := by
  unfold Node.getUnassignedVariables
  rw [List.mem_dedup, List.mem_insertionSort, List.mem_map]
  constructor
  · rintro ⟨l, hl, hlv⟩
    rw [List.mem_filter] at hl
    rcases hl with ⟨hl1, hl2⟩
    rw [List.mem_flatMap] at hl1
    rcases hl1 with ⟨c, hc, hlc⟩
    rw [List.mem_filter] at hlc
    rcases hlc with ⟨hlc1, hlc2⟩
    have hl0 : l ≠ 0 := by simpa using hlc2
    refine ⟨⟨c, hc, l, hlc1, hl0, hlv⟩, ?_⟩
    rw [getLiteralAssignment_assigned] at hl2
    rw [← hlv]
    simpa using hl2
  · rintro ⟨⟨c, hc, l, hlc, hl0, hlv⟩, hnone⟩
    refine ⟨l, ?_, hlv⟩
    rw [List.mem_filter]
    refine ⟨?_, ?_⟩
    · rw [List.mem_flatMap]
      exact ⟨c, hc, by rw [List.mem_filter]; exact ⟨hlc, by simpa using hl0⟩⟩
    · rw [getLiteralAssignment_assigned, hlv, hnone]
      rfl

theorem getUnassignedVariables_nodup (f : List (List Int)) (σ : LiteralAssignment) :
    (Node.getUnassignedVariables f σ).Nodup := List.nodup_dedup _

theorem getUnassignedVariables_sorted (f : List (List Int)) (σ : LiteralAssignment) :
    List.Sorted (· ≤ ·) (Node.getUnassignedVariables f σ) := by
  unfold Node.getUnassignedVariables
  exact List.Pairwise.sublist (List.dedup_sublist _) (List.sorted_insertionSort (· ≤ ·) _)

theorem getUnassignedVariables_pos {f : List (List Int)} {σ : LiteralAssignment} {v : Nat}
    (h : v ∈ Node.getUnassignedVariables f σ) : 1 ≤ v := by
  rcases mem_getUnassignedVariables.mp h with ⟨⟨c, _, l, _, hl0, hlv⟩, _⟩
  rw [← hlv]
  exact one_le_toVariable hl0

theorem getUnassignedVariables_congr {f : List (List Int)} {σ1 σ2 : LiteralAssignment}
    (h : Agree σ1 σ2) :
    Node.getUnassignedVariables f σ1 = Node.getUnassignedVariables f σ2 := by
  unfold Node.getUnassignedVariables
  have : (f.flatMap fun c => c.filter (· ≠ 0)).filter
        (fun l => !(σ1.getLiteralAssignment l).assigned) =
      (f.flatMap fun c => c.filter (· ≠ 0)).filter
        (fun l => !(σ2.getLiteralAssignment l).assigned) := by
    apply List.filter_congr
    intro l hl
    rw [List.mem_flatMap] at hl
    rcases hl with ⟨c, _, hlc⟩
    rw [List.mem_filter] at hlc
    have hl0 : l ≠ 0 := by simpa using hlc.2
    rw [getLiteralAssignment_assigned, getLiteralAssignment_assigned,
      h (toVariable l) (one_le_toVariable hl0)]
  rw [this]

theorem getUnassignedVariables_mem_formulaVars {f : List (List Int)} {σ : LiteralAssignment}
    {v : Nat} (h : v ∈ Node.getUnassignedVariables f σ) : v ∈ formulaVars f := by
  rcases mem_getUnassignedVariables.mp h with ⟨⟨c, hc, l, hlc, hl0, hlv⟩, _⟩
  unfold formulaVars
  rw [List.mem_dedup, List.mem_map]
  refine ⟨l, ?_, hlv⟩
  rw [List.mem_flatMap]
  exact ⟨c, hc, by rw [List.mem_filter]; exact ⟨hlc, by simpa using hl0⟩⟩

theorem getUnassignedVariables_length_le (f : List (List Int)) (σ : LiteralAssignment) :
    (Node.getUnassignedVariables f σ).length ≤ (formulaVars f).length := by
  have h1 : (Node.getUnassignedVariables f σ).toFinset.card =
      (Node.getUnassignedVariables f σ).length :=
    List.toFinset_card_of_nodup (getUnassignedVariables_nodup f σ)
  have h2 : (Node.getUnassignedVariables f σ).toFinset ⊆ (formulaVars f).toFinset := by
    intro v hv
    rw [List.mem_toFinset] at hv ⊢
    exact getUnassignedVariables_mem_formulaVars hv
  calc (Node.getUnassignedVariables f σ).length
      = (Node.getUnassignedVariables f σ).toFinset.card := h1.symm
    _ ≤ (formulaVars f).toFinset.card := Finset.card_le_card h2
    _ ≤ (formulaVars f).length := List.toFinset_card_le _

/-- Extending the store with at least one variable of the unassigned
list strictly shrinks it. -/
theorem getUnassignedVariables_length_lt {f : List (List Int)} {σ σ2 : LiteralAssignment}
    {v : Nat} {b : Bool} (hE : Ext σ σ2) (hv : v ∈ Node.getUnassignedVariables f σ)
    (hv2 : σ2.lookup v = some b) :
    (Node.getUnassignedVariables f σ2).length < (Node.getUnassignedVariables f σ).length := by
  have hsub : (Node.getUnassignedVariables f σ2).toFinset ⊂
      (Node.getUnassignedVariables f σ).toFinset := by
    constructor
    · intro x hx
      rw [List.mem_toFinset] at hx ⊢
      rcases mem_getUnassignedVariables.mp hx with ⟨hocc, hnone⟩
      rw [mem_getUnassignedVariables]
      refine ⟨hocc, ?_⟩
      by_contra hne
      rcases Option.ne_none_iff_exists.mp hne with ⟨bb, hbb⟩
      rcases hocc with ⟨c, _, l, _, hl0, hlv⟩
      have hx1 : 1 ≤ x := by rw [← hlv]; exact one_le_toVariable hl0
      have := hE x bb hx1 hbb.symm
      rw [hnone] at this
      exact Option.noConfusion this
    · intro hsub
      have := hsub (List.mem_toFinset.mpr hv)
      rw [List.mem_toFinset, mem_getUnassignedVariables] at this
      rw [this.2] at hv2
      exact Option.noConfusion hv2
  calc (Node.getUnassignedVariables f σ2).length
      = (Node.getUnassignedVariables f σ2).toFinset.card :=
        (List.toFinset_card_of_nodup (getUnassignedVariables_nodup f σ2)).symm
    _ < (Node.getUnassignedVariables f σ).toFinset.card := Finset.card_lt_card hsub
    _ = (Node.getUnassignedVariables f σ).length :=
        List.toFinset_card_of_nodup (getUnassignedVariables_nodup f σ)

/-! ## Unwinding a guess block -/

/-- The store after unassigning the variables of a list of trail steps
in order. -/
def unassignSteps (us : List TrailStep) (σ : LiteralAssignment) : LiteralAssignment :=
  us.foldl (fun σt s => σt.unassignVariable (toVariable s.assignment)) σ

theorem unassignSteps_WF (us : List TrailStep) :
    ∀ σ : LiteralAssignment, σ.WF → (unassignSteps us σ).WF := by
  induction us with
  | nil => intro σ h; exact h
  | cons s rest ih =>
    intro σ h
    exact ih _ (σ.WF_unassignVariable h _)

theorem unassignSteps_lookup (us : List TrailStep)
    (hvars : ∀ s ∈ us, 1 ≤ toVariable s.assignment) :
    ∀ (σ : LiteralAssignment) (x : Nat), 1 ≤ x →
      (unassignSteps us σ).lookup x =
        if x ∈ us.map (fun s => toVariable s.assignment) then none else σ.lookup x := by
  induction us with
  | nil => intro σ x _; simp [unassignSteps]
  | cons s rest ih =>
    intro σ x hx
    have hs1 : 1 ≤ toVariable s.assignment := hvars s (List.mem_cons_self _ _)
    have hstep : unassignSteps (s :: rest) σ =
        unassignSteps rest (σ.unassignVariable (toVariable s.assignment)) := rfl
    rw [hstep, ih (fun t ht => hvars t (List.mem_cons_of_mem _ ht)) _ x hx]
    by_cases hmem : x ∈ rest.map fun t => toVariable t.assignment
    · rw [if_pos hmem, if_pos (by rw [List.map_cons]; exact List.mem_cons_of_mem _ hmem)]
    · rw [if_neg hmem]
      by_cases hxs : x = toVariable s.assignment
      · rw [if_pos (by rw [List.map_cons, hxs]; exact List.mem_cons_self _ _), hxs]
        exact σ.lookup_unassignVariable_self _ hs1
      · have hni : x ∉ List.map (fun t => toVariable t.assignment) (s :: rest) := by
          rw [List.map_cons]
          intro hc
          rcases List.mem_cons.mp hc with h | h
          · exact hxs h
          · exact hmem h
        rw [if_neg hni]
        exact σ.lookup_unassignVariable_ne hs1 hx hxs

/-- Unwinding a trail that starts with a block of unit steps followed by
a decision pops exactly the block and the decision. -/
theorem unwindLoop_block (us : List TrailStep) (hu : ∀ s ∈ us, s.unit = true)
    (dec : TrailStep) (hd : dec.unit = false) (T : List TrailStep) :
    ∀ σ : LiteralAssignment, DPLL.unwindLoop (us ++ dec :: T) σ =
      ((unassignSteps us σ).unassignVariable (toVariable dec.assignment), T) := by
  induction us with
  | nil =>
    intro σ
    show DPLL.unwindLoop (dec :: T) σ = _
    unfold DPLL.unwindLoop
    rw [hd]
    simp [unassignSteps]
  | cons s rest ih =>
    intro σ
    show DPLL.unwindLoop (s :: (rest ++ dec :: T)) σ = _
    unfold DPLL.unwindLoop
    rw [hu s (List.mem_cons_self _ _)]
    simp only [if_true]
    exact ih (fun t ht => hu t (List.mem_cons_of_mem _ ht))
      (σ.unassignVariable (toVariable s.assignment))

/-! ## Facts about one DPLL guess -/

theorem dpllGuess_assignments (f : List (List Int)) (st : DPLLState) (lit : Int) :
    (dpllGuess f st lit).2.1.assignments =
      (Node.evaluateRoot true (st.assignments.assignLiteral lit true) f).2.1 := rfl

theorem dpllGuess_trail (f : List (List Int)) (st : DPLLState) (lit : Int) :
    (dpllGuess f st lit).2.1.trail =
      ((Node.evaluateRoot true (st.assignments.assignLiteral lit true) f).2.2.map
        (fun l => TrailStep.mk l true)).reverse ++ ⟨lit, false⟩ :: st.trail := rfl

theorem dpllGuess_ext {f : List (List Int)} {st : DPLLState} {lit : Int}
    (hW : st.assignments.WF) (hl : lit ≠ 0)
    (hnew : st.assignments.lookup (toVariable lit) = none) :
    Ext st.assignments (dpllGuess f st lit).2.1.assignments ∧
      (dpllGuess f st lit).2.1.assignments.WF ∧
      (dpllGuess f st lit).2.1.assignments.lookup (toVariable lit) = some (litPol lit) := by
  have hWdec : (st.assignments.assignLiteral lit true).WF := st.assignments.WF_assignLiteral hW _ _
  have hEdec : Ext st.assignments (st.assignments.assignLiteral lit true) :=
    Ext_assignLiteral st.assignments hW hl hnew true
  have hP := Node.evaluateRoot_propsOK true f (st.assignments.assignLiteral lit true)
  rcases hP.ext hWdec with ⟨hE2, hW2⟩
  rw [dpllGuess_assignments]
  refine ⟨hEdec.comp hE2, hW2, ?_⟩
  exact hE2 _ _ (one_le_toVariable hl) (lookup_assignLiteral_true_self st.assignments hl)

/-- Unwinding after a failed guess (from any store that agrees with the
guess's output store) restores the entry trail and, up to `Agree`, the
entry store. -/
theorem dpllGuess_unwind {f : List (List Int)} {st : DPLLState} {lit : Int}
    (σ3 : LiteralAssignment) (hW : st.assignments.WF) (hW3 : σ3.WF) (hl : lit ≠ 0)
    (hnew : st.assignments.lookup (toVariable lit) = none)
    (hA : Agree σ3 (dpllGuess f st lit).2.1.assignments) :
    (DPLL.unwind ⟨σ3, (dpllGuess f st lit).2.1.trail⟩).trail = st.trail ∧
      Agree (DPLL.unwind ⟨σ3, (dpllGuess f st lit).2.1.trail⟩).assignments st.assignments ∧
      (DPLL.unwind ⟨σ3, (dpllGuess f st lit).2.1.trail⟩).assignments.WF := by
  have hWdec : (st.assignments.assignLiteral lit true).WF := st.assignments.WF_assignLiteral hW _ _
  have hP := Node.evaluateRoot_propsOK true f (st.assignments.assignLiteral lit true)
  set σdec := st.assignments.assignLiteral lit true with hσdec
  set pr := (Node.evaluateRoot true σdec f).2.2 with hpr
  set σ2 := (Node.evaluateRoot true σdec f).2.1 with hσ2
  set us := (pr.map fun l => TrailStep.mk l true).reverse with hus
  have hu : ∀ s ∈ us, s.unit = true := by
    intro s hs
    rw [hus, List.mem_reverse] at hs
    rcases List.mem_map.mp hs with ⟨l, _, hls⟩
    rw [← hls]
  have husvars : ∀ s ∈ us, 1 ≤ toVariable s.assignment := by
    intro s hs
    rw [hus, List.mem_reverse] at hs
    rcases List.mem_map.mp hs with ⟨l, hlp, hls⟩
    rw [← hls]
    exact one_le_toVariable (hP.nonzero l hlp)
  have husmem : ∀ x : Nat, (x ∈ us.map fun s => toVariable s.assignment) ↔
      x ∈ pr.map toVariable := by
    intro x
    rw [hus, List.map_reverse, List.mem_reverse, List.map_map]
    rfl
  have hblock := unwindLoop_block us hu ⟨lit, false⟩ rfl st.trail σ3
  have hunw : DPLL.unwind ⟨σ3, (dpllGuess f st lit).2.1.trail⟩ =
      ⟨(unassignSteps us σ3).unassignVariable (toVariable lit), st.trail⟩ := by
    rw [show (⟨σ3, (dpllGuess f st lit).2.1.trail⟩ : DPLLState) =
        ⟨σ3, us ++ ⟨lit, false⟩ :: st.trail⟩ by rw [dpllGuess_trail]]
    unfold DPLL.unwind
    rw [hblock]
  rw [hunw]
  refine ⟨rfl, ?_, ?_⟩
  · -- agreement with the entry store
    intro x hx
    by_cases hxl : x = toVariable lit
    · rw [hxl]
      rw [LiteralAssignment.lookup_unassignVariable_self _ _ (one_le_toVariable hl)]
      rw [hnew]
    · rw [LiteralAssignment.lookup_unassignVariable_ne _ (one_le_toVariable hl) hx hxl]
      rw [unassignSteps_lookup us husvars σ3 x hx]
      by_cases hmem : x ∈ us.map fun s => toVariable s.assignment
      · rw [if_pos hmem]
        rw [husmem] at hmem
        rcases List.mem_map.mp hmem with ⟨l, hlp, hlx⟩
        have h1 : σdec.lookup (toVariable l) = none := hP.start_none hWdec l hlp
        rw [hlx] at h1
        rw [hσdec] at h1
        rw [← lookup_assignLiteral_ne st.assignments hW true hl hx hxl] at *
        rw [h1]
      · rw [if_neg hmem]
        rw [hA x hx]
        rw [show (dpllGuess f st lit).2.1.assignments = σ2 from dpllGuess_assignments f st lit]
        rw [hP.lookup_preserved hWdec x hx (fun hc => hmem ((husmem x).mpr hc))]
        rw [hσdec]
        exact lookup_assignLiteral_ne st.assignments hW true hl hx hxl
  · exact LiteralAssignment.WF_unassignVariable _ (unassignSteps_WF us σ3 hW3) _

theorem Ext_of_Agree {σ1 σ2 : LiteralAssignment} (h : Agree σ1 σ2) : Ext σ1 σ2 := by
  intro x b hx hsome
  rw [← h x hx]
  exact hsome

theorem dpllGuess_result (f : List (List Int)) (st : DPLLState) (lit : Int) :
    (dpllGuess f st lit).1 =
      (Node.evaluateRoot true (st.assignments.assignLiteral lit true) f).1 := rfl

theorem dpllGuess_no_addClause (f : List (List Int)) (st : DPLLState) (lit : Int)
    (c : List Int) : LogEntry.addClause c ∉ (dpllGuess f st lit).2.2 := by
  intro hmem
  simp only [dpllGuess, List.mem_cons, List.mem_append, List.mem_map] at hmem
  rcases hmem with h | ⟨l, _, h⟩ | h
  · exact LogEntry.noConfusion h
  · exact LogEntry.noConfusion h
  · split at h
    · rcases List.mem_singleton.mp h with h1
      exact LogEntry.noConfusion h1
    · exact absurd h (List.not_mem_nil _)

/-- The membership obligation carried through the variable loop: every
remaining variable was in the unassigned-variable list at entry. -/
def CallVarsOK (f : List (List Int)) : DCall → Prop
  | .step _ => True
  | .loop vars st => ∀ v ∈ vars, v ∈ Node.getUnassignedVariables f st.assignments

theorem Assignment.eq_tt {a : Assignment} (h1 : a.assigned = true) (h2 : a.value = true) :
    a = { assigned := true, value := true } := by
  rcases a with ⟨fl, vl⟩
  simp_all

/-- The combined invariant of a `DPLL::step` run: well-formedness of the
store is preserved, the store only grows (up to the restoring unwinds),
an unsatisfied or undetermined run restores the entry store and trail,
a satisfied run satisfies every clause, and no run ever installs a
clause. -/
theorem dpllGo_spec : ∀ (fuel : Nat) (f : List (List Int)) (call : DCall)
    (res : Assignment) (st1 : DPLLState) (log : List LogEntry),
    dpllGo fuel f call = some (res, st1, log) →
    call.state.assignments.WF → CallVarsOK f call →
    st1.assignments.WF ∧
    Ext call.state.assignments st1.assignments ∧
    (¬(res.assigned = true ∧ res.value = true) →
      Agree st1.assignments call.state.assignments ∧ st1.trail = call.state.trail) ∧
    (res = { assigned := true, value := true } → ∀ c ∈ f, ClauseSat st1.assignments c) ∧
    (∀ c : List Int, LogEntry.addClause c ∉ log) := by
  intro fuel
  induction fuel with
  | zero =>
    intro f call res st1 log h _ _
    exact absurd h (by simp [dpllGo])
  | succ fuel ih =>
    intro f call res st1 log h hW hOK
    match call with
    | .step st =>
      simp only [dpllGo] at h
      split at h
      · simp only [Option.some.injEq, Prod.mk.injEq] at h
        obtain ⟨hres, hst, hlog⟩ := h
        subst hres
        subst hst
        subst hlog
        refine ⟨hW, Ext.refl _, fun _ => ⟨Agree.self _, rfl⟩, ?_, ?_⟩
        · intro ht
          exact absurd ht (by simp)
        · intro c
          exact List.not_mem_nil _
      · exact ih f (.loop (Node.getUnassignedVariables f st.assignments) st) res st1 log h hW
          (fun v hv => hv)
    | .loop [] st =>
      simp only [dpllGo, Option.some.injEq, Prod.mk.injEq] at h
      obtain ⟨hres, hst, hlog⟩ := h
      subst hres
      subst hst
      subst hlog
      refine ⟨hW, Ext.refl _, fun _ => ⟨Agree.self _, rfl⟩, ?_, ?_⟩
      · intro ht
        exact absurd ht (by simp)
      · intro c
        exact List.not_mem_nil _
    | .loop (v :: rest) st =>
      have hv : v ∈ Node.getUnassignedVariables f st.assignments :=
        hOK v (List.mem_cons_self _ _)
      have hv1 : 1 ≤ v := getUnassignedVariables_pos hv
      have hvnone : st.assignments.lookup v = none := (mem_getUnassignedVariables.mp hv).2
      have hl1 : toLiteral v false ≠ 0 := toLiteral_ne_zero hv1 false
      obtain ⟨hE1, hW1, hlook1⟩ :=
        @dpllGuess_ext f st (toLiteral v false) hW hl1
          (by rw [toVariable_toLiteral]; exact hvnone)
      simp only [dpllGo] at h
      split at h
      · -- first guess satisfied
        rename_i hsat1
        simp only [Option.some.injEq, Prod.mk.injEq] at h
        obtain ⟨hres, hst, hlog⟩ := h
        subst hres
        subst hst
        subst hlog
        have hres1 : (dpllGuess f st (toLiteral v false)).1 =
            { assigned := true, value := true } := Assignment.eq_tt hsat1.1 hsat1.2
        refine ⟨hW1, hE1, fun hns => absurd ⟨rfl, rfl⟩ hns, ?_, ?_⟩
        · intro _ c hc
          have hWdec : (st.assignments.assignLiteral (toLiteral v false) true).WF :=
            st.assignments.WF_assignLiteral hW _ _
          have hroot : (Node.evaluateRoot true
              (st.assignments.assignLiteral (toLiteral v false) true) f).1 =
              { assigned := true, value := true } := by
            rw [← dpllGuess_result]
            exact hres1
          have hall := rootLoop_sat_all true f _ _ hWdec hroot c hc
          rw [dpllGuess_assignments]
          exact hall
        · intro c
          exact dpllGuess_no_addClause f st _ c
      · -- first guess not satisfied: recurse
        rename_i hns1
        split at h
        · exact Option.noConfusion h
        · rename_i a2 st3 log2 heq1
          have ihB := ih f (.step (dpllGuess f st (toLiteral v false)).2.1) a2 st3 log2 heq1
            hW1 trivial
          obtain ⟨hW3, hE3, hRest3, hSound3, hLog3⟩ := ihB
          simp only [DCall.state] at hE3 hRest3
          split at h
          · -- recursion satisfied
            rename_i hsat2
            simp only [Option.some.injEq, Prod.mk.injEq] at h
            obtain ⟨hres, hst, hlog⟩ := h
            subst hres
            subst hst
            subst hlog
            refine ⟨hW3, hE1.comp hE3, fun hns => absurd ⟨rfl, rfl⟩ hns, ?_, ?_⟩
            · intro _ c hc
              exact hSound3 (Assignment.eq_tt hsat2.1 hsat2.2) c hc
            · intro c hmem
              rcases List.mem_append.mp hmem with hm | hm
              · exact dpllGuess_no_addClause f st _ c hm
              · exact hLog3 c hm
          · -- recursion failed: unwind, second guess
            rename_i hns2
            obtain ⟨hAg3, hTr3⟩ := hRest3 (by simpa using hns2)
            have hst3eta : st3 = ⟨st3.assignments, (dpllGuess f st (toLiteral v false)).2.1.trail⟩ := by
              rw [← hTr3]
            have hunw1 := @dpllGuess_unwind f st (toLiteral v false)
              st3.assignments hW hW3 hl1 (by rw [toVariable_toLiteral]; exact hvnone)
              (by rw [show (dpllGuess f st (toLiteral v false)).2.1.assignments =
                  (dpllGuess f st (toLiteral v false)).2.1.assignments from rfl]; exact hAg3)
            obtain ⟨hTr4, hAg4, hW4⟩ := hunw1
            rw [← hst3eta] at hTr4 hAg4 hW4
            -- second guess
            have hl2 : toLiteral v true ≠ 0 := toLiteral_ne_zero hv1 true
            have hvnone4 : (DPLL.unwind st3).assignments.lookup v = none := by
              rw [hAg4 v hv1]
              exact hvnone
            obtain ⟨hE5, hW5, hlook5⟩ :=
              @dpllGuess_ext f (DPLL.unwind st3) (toLiteral v true) hW4 hl2
                (by rw [toVariable_toLiteral]; exact hvnone4)
            have hExtSt4 : Ext st.assignments (DPLL.unwind st3).assignments :=
              Ext_of_Agree hAg4.symm
            split at h
            · -- second guess satisfied
              rename_i hsat3
              simp only [Option.some.injEq, Prod.mk.injEq] at h
              obtain ⟨hres, hst, hlog⟩ := h
              subst hres
              subst hst
              subst hlog
              refine ⟨hW5, hExtSt4.comp hE5, fun hns => absurd ⟨rfl, rfl⟩ hns, ?_, ?_⟩
              · intro _ c hc
                have hWdec : ((DPLL.unwind st3).assignments.assignLiteral
                    (toLiteral v true) true).WF :=
                  (DPLL.unwind st3).assignments.WF_assignLiteral hW4 _ _
                have hroot : (Node.evaluateRoot true
                    ((DPLL.unwind st3).assignments.assignLiteral (toLiteral v true) true) f).1 =
                    { assigned := true, value := true } := by
                  rw [← dpllGuess_result]
                  exact Assignment.eq_tt hsat3.1 hsat3.2
                have hall := rootLoop_sat_all true f _ _ hWdec hroot c hc
                rw [dpllGuess_assignments]
                exact hall
              · intro c hmem
                rcases List.mem_append.mp hmem with hm | hm
                · rcases List.mem_append.mp hm with hm1 | hm1
                  · exact dpllGuess_no_addClause f st _ c hm1
                  · exact hLog3 c hm1
                · exact dpllGuess_no_addClause f (DPLL.unwind st3) _ c hm
            · -- second guess not satisfied: recurse
              rename_i hns3
              split at h
              · exact Option.noConfusion h
              · rename_i a4 st7 log4 heq2
                have ihD := ih f (.step (dpllGuess f (DPLL.unwind st3) (toLiteral v true)).2.1)
                  a4 st7 log4 heq2 hW5 trivial
                obtain ⟨hW7, hE7, hRest7, hSound7, hLog7⟩ := ihD
                simp only [DCall.state] at hE7 hRest7
                split at h
                · -- second recursion satisfied
                  rename_i hsat4
                  simp only [Option.some.injEq, Prod.mk.injEq] at h
                  obtain ⟨hres, hst, hlog⟩ := h
                  subst hres
                  subst hst
                  subst hlog
                  refine ⟨hW7, (hExtSt4.comp hE5).comp hE7,
                    fun hns => absurd ⟨rfl, rfl⟩ hns, ?_, ?_⟩
                  · intro _ c hc
                    exact hSound7 (Assignment.eq_tt hsat4.1 hsat4.2) c hc
                  · intro c hmem
                    rcases List.mem_append.mp hmem with hm | hm
                    · rcases List.mem_append.mp hm with hm1 | hm1
                      · rcases List.mem_append.mp hm1 with hm2 | hm2
                        · exact dpllGuess_no_addClause f st _ c hm2
                        · exact hLog3 c hm2
                      · exact dpllGuess_no_addClause f (DPLL.unwind st3) _ c hm1
                    · exact hLog7 c hm
                · -- both guesses failed: move to the next variable
                  rename_i hns4
                  obtain ⟨hAg7, hTr7⟩ := hRest7 (by simpa using hns4)
                  have hst7eta : st7 = ⟨st7.assignments,
                      (dpllGuess f (DPLL.unwind st3) (toLiteral v true)).2.1.trail⟩ := by
                    rw [← hTr7]
                  have hunw2 := @dpllGuess_unwind f (DPLL.unwind st3)
                    (toLiteral v true) st7.assignments hW4 hW7 hl2
                    (by rw [toVariable_toLiteral]; exact hvnone4) hAg7
                  obtain ⟨hTr8, hAg8, hW8⟩ := hunw2
                  rw [← hst7eta] at hTr8 hAg8 hW8
                  have hAg8st : Agree (DPLL.unwind st7).assignments st.assignments :=
                    hAg8.trans hAg4
                  have hTr8st : (DPLL.unwind st7).trail = st.trail := by
                    rw [hTr8, hTr4]
                  split at h
                  · exact Option.noConfusion h
                  · rename_i a5 st9 log5 heq3
                    have hOK8 : CallVarsOK f (.loop rest (DPLL.unwind st7)) := by
                      intro x hx
                      rw [getUnassignedVariables_congr hAg8st]
                      exact hOK x (List.mem_cons_of_mem _ hx)
                    have ihE := ih f (.loop rest (DPLL.unwind st7)) a5 st9 log5 heq3 hW8 hOK8
                    obtain ⟨hW9, hE9, hRest9, hSound9, hLog9⟩ := ihE
                    simp only [DCall.state] at hE9 hRest9
                    simp only [Option.some.injEq, Prod.mk.injEq] at h
                    obtain ⟨hres, hst, hlog⟩ := h
                    subst hres
                    subst hst
                    subst hlog
                    refine ⟨hW9, (Ext_of_Agree hAg8st.symm).comp hE9, ?_, ?_, ?_⟩
                    · intro hns
                      obtain ⟨hAg9, hTr9⟩ := hRest9 hns
                      exact ⟨hAg9.trans hAg8st, by rw [hTr9]; exact hTr8st⟩
                    · intro hsat c hc
                      exact hSound9 hsat c hc
                    · intro c hmem
                      rcases List.mem_append.mp hmem with hm | hm
                      · rcases List.mem_append.mp hm with hm1 | hm1
                        · rcases List.mem_append.mp hm1 with hm2 | hm2
                          · rcases List.mem_append.mp hm2 with hm3 | hm3
                            · exact dpllGuess_no_addClause f st _ c hm3
                            · exact hLog3 c hm3
                          · exact dpllGuess_no_addClause f (DPLL.unwind st3) _ c hm2
                        · exact hLog7 c hm1
                      · exact hLog9 c hm

/-- `dpllMu` bounds the recursion depth: with more fuel than the measure
the run completes. -/
theorem dpllGo_suff : ∀ (fuel : Nat) (f : List (List Int)) (call : DCall),
    call.state.assignments.WF → CallVarsOK f call → dpllMu f call < fuel →
    (dpllGo fuel f call).isSome := by
  intro fuel
  induction fuel with
  | zero =>
    intro f call _ _ hμ
    omega
  | succ fuel ih =>
    intro f call hW hOK hμ
    match call with
    | .step st =>
      simp only [dpllGo]
      split
      · simp
      · rename_i hne
        apply ih f (.loop (Node.getUnassignedVariables f st.assignments) st) hW (fun v hv => hv)
        have hcard := getUnassignedVariables_length_le f st.assignments
        simp only [dpllMu, DCall.state] at hμ ⊢
        omega
    | .loop [] st => simp [dpllGo]
    | .loop (v :: rest) st =>
      have hv : v ∈ Node.getUnassignedVariables f st.assignments :=
        hOK v (List.mem_cons_self _ _)
      have hv1 : 1 ≤ v := getUnassignedVariables_pos hv
      have hvnone : st.assignments.lookup v = none := (mem_getUnassignedVariables.mp hv).2
      have hl1 : toLiteral v false ≠ 0 := toLiteral_ne_zero hv1 false
      obtain ⟨hE1, hW1, hlook1⟩ :=
        @dpllGuess_ext f st (toLiteral v false) hW hl1
          (by rw [toVariable_toLiteral]; exact hvnone)
      rw [toVariable_toLiteral] at hlook1
      -- the measure strictly drops under the first guess
      have hlt1 : (Node.getUnassignedVariables f
            (dpllGuess f st (toLiteral v false)).2.1.assignments).length <
          (Node.getUnassignedVariables f st.assignments).length :=
        getUnassignedVariables_length_lt hE1 hv hlook1
      have hcard := getUnassignedVariables_length_le f st.assignments
      simp only [dpllMu, DCall.state, List.length_cons] at hμ
      have hμ2 : dpllMu f (.step (dpllGuess f st (toLiteral v false)).2.1) < fuel := by
        simp only [dpllMu, DCall.state]
        set n := (Node.getUnassignedVariables f st.assignments).length with hn
        set m := (Node.getUnassignedVariables f
          (dpllGuess f st (toLiteral v false)).2.1.assignments).length with hm
        set V := (formulaVars f).length with hV
        have hmul : m * (2 * V + 4) + (2 * V + 4) ≤ n * (2 * V + 4) := by
          have h1 : m + 1 ≤ n := hlt1
          calc m * (2 * V + 4) + (2 * V + 4) = (m + 1) * (2 * V + 4) := by ring
            _ ≤ n * (2 * V + 4) := Nat.mul_le_mul_right _ h1
        omega
      simp only [dpllGo]
      split
      · simp
      · rename_i hns1
        have h1 := ih f (.step (dpllGuess f st (toLiteral v false)).2.1) hW1 trivial hμ2
        obtain ⟨⟨a2, st3, log2⟩, heq1⟩ := Option.isSome_iff_exists.mp h1
        rw [heq1]
        dsimp only
        split
        · simp
        · rename_i hns2
          -- unwind and try the false branch
          obtain ⟨hW3, _, hRest3, _, _⟩ := dpllGo_spec fuel f _ a2 st3 log2 heq1 hW1 trivial
          simp only [DCall.state] at hRest3
          obtain ⟨hAg3, hTr3⟩ := hRest3 (by simpa using hns2)
          have hst3eta : st3 = ⟨st3.assignments,
              (dpllGuess f st (toLiteral v false)).2.1.trail⟩ := by
            rw [← hTr3]
          have hunw1 := @dpllGuess_unwind f st (toLiteral v false)
            st3.assignments hW hW3 hl1 (by rw [toVariable_toLiteral]; exact hvnone) hAg3
          obtain ⟨hTr4, hAg4, hW4⟩ := hunw1
          rw [← hst3eta] at hTr4 hAg4 hW4
          have hl2 : toLiteral v true ≠ 0 := toLiteral_ne_zero hv1 true
          have hvnone4 : (DPLL.unwind st3).assignments.lookup v = none := by
            rw [hAg4 v hv1]
            exact hvnone
          obtain ⟨hE5, hW5, hlook5⟩ :=
            @dpllGuess_ext f (DPLL.unwind st3) (toLiteral v true) hW4 hl2
              (by rw [toVariable_toLiteral]; exact hvnone4)
          rw [toVariable_toLiteral] at hlook5
          have hUV4 : Node.getUnassignedVariables f (DPLL.unwind st3).assignments =
              Node.getUnassignedVariables f st.assignments :=
            getUnassignedVariables_congr hAg4
          have hv4 : v ∈ Node.getUnassignedVariables f (DPLL.unwind st3).assignments := by
            rw [hUV4]
            exact hv
          have hlt2 : (Node.getUnassignedVariables f
                (dpllGuess f (DPLL.unwind st3) (toLiteral v true)).2.1.assignments).length <
              (Node.getUnassignedVariables f st.assignments).length := by
            have := getUnassignedVariables_length_lt hE5 hv4 hlook5
            rw [hUV4] at this
            exact this
          have hμ3 : dpllMu f (.step (dpllGuess f (DPLL.unwind st3) (toLiteral v true)).2.1) <
              fuel := by
            simp only [dpllMu, DCall.state]
            set n := (Node.getUnassignedVariables f st.assignments).length with hn
            set m := (Node.getUnassignedVariables f
              (dpllGuess f (DPLL.unwind st3) (toLiteral v true)).2.1.assignments).length with hm
            set V := (formulaVars f).length with hV
            have hmul : m * (2 * V + 4) + (2 * V + 4) ≤ n * (2 * V + 4) := by
              have h1 : m + 1 ≤ n := hlt2
              calc m * (2 * V + 4) + (2 * V + 4) = (m + 1) * (2 * V + 4) := by ring
                _ ≤ n * (2 * V + 4) := Nat.mul_le_mul_right _ h1
            omega
          split
          · simp
          · rename_i hns3
            have h2 := ih f (.step (dpllGuess f (DPLL.unwind st3) (toLiteral v true)).2.1)
              hW5 trivial hμ3
            obtain ⟨⟨a4, st7, log4⟩, heq2⟩ := Option.isSome_iff_exists.mp h2
            rw [heq2]
            dsimp only
            split
            · simp
            · rename_i hns4
              obtain ⟨hW7, _, hRest7, _, _⟩ := dpllGo_spec fuel f _ a4 st7 log4 heq2 hW5 trivial
              simp only [DCall.state] at hRest7
              obtain ⟨hAg7, hTr7⟩ := hRest7 (by simpa using hns4)
              have hst7eta : st7 = ⟨st7.assignments,
                  (dpllGuess f (DPLL.unwind st3) (toLiteral v true)).2.1.trail⟩ := by
                rw [← hTr7]
              have hunw2 := @dpllGuess_unwind f (DPLL.unwind st3)
                (toLiteral v true) st7.assignments hW4 hW7 hl2
                (by rw [toVariable_toLiteral]; exact hvnone4) hAg7
              obtain ⟨hTr8, hAg8, hW8⟩ := hunw2
              rw [← hst7eta] at hTr8 hAg8 hW8
              have hAg8st : Agree (DPLL.unwind st7).assignments st.assignments :=
                hAg8.trans hAg4
              have hOK8 : CallVarsOK f (.loop rest (DPLL.unwind st7)) := by
                intro x hx
                rw [getUnassignedVariables_congr hAg8st]
                exact hOK x (List.mem_cons_of_mem _ hx)
              have hμ4 : dpllMu f (.loop rest (DPLL.unwind st7)) < fuel := by
                simp only [dpllMu, DCall.state]
                rw [getUnassignedVariables_congr hAg8st]
                omega
              have h3 := ih f (.loop rest (DPLL.unwind st7)) hW8 hOK8 hμ4
              obtain ⟨⟨a5, st9, log5⟩, heq3⟩ := Option.isSome_iff_exists.mp h3
              rw [heq3]
              simp

/-! ## Further clause/root characterizations -/

/-- An unsatisfied clause evaluation means every (non-sentinel) literal
of the clause is assigned false. -/
theorem evaluateClause_false_char (p : Bool) (σ : LiteralAssignment) (c : List Int)
    (h : (Node.evaluateClause p σ c).1 = { assigned := true, value := false }) :
    ∀ l ∈ c, l ≠ 0 → σ.getLiteralAssignment l = { assigned := true, value := false } := by
  revert h
  unfold Node.evaluateClause
  rcases hr : Clause.evalLoop σ c ⟨{ assigned := false, value := false }, 0, 0⟩ with ⟨s, sc⟩
  cases sc
  · intro h
    dsimp only at h
    have hno := evalLoop_no_sc σ c ⟨{ assigned := false, value := false }, 0, 0⟩ rfl
      (by rw [hr])
    rw [hr] at hno
    have hseq := show s = _ from hno.1
    have hsa : s.a = { assigned := false, value := false } := by rw [hseq]
    have hcnt : s.cnt = 0 + List.countP (unassignedLit σ) c := by rw [hseq]
    by_cases hcp : s.cnt = 1 ∧ p = true
    · rw [if_pos hcp] at h
      exact absurd h (by simp)
    · rw [if_neg hcp] at h
      by_cases hc : s.cnt = 0
      · intro l hl hl0
        have hk : List.countP (unassignedLit σ) c = 0 := by omega
        have hassigned : (σ.getLiteralAssignment l).assigned = true := by
          have := List.countP_eq_zero.mp hk l hl
          simp only [unassignedLit, Bool.and_eq_true, Bool.not_eq_true',
            decide_eq_true_eq] at this
          by_contra hcon
          rw [Bool.not_eq_true] at hcon
          exact this ⟨hl0, hcon⟩
        have hnt := hno.2 l hl hl0
        rcases hla : σ.getLiteralAssignment l with ⟨fl, vl⟩
        rw [hla] at hassigned hnt
        simp only at hassigned
        subst hassigned
        cases vl
        · rfl
        · exact absurd rfl hnt
      · rw [if_neg hc, hsa] at h
        exact absurd h (by simp)
  · intro h
    dsimp only at h
    have hh := evalLoop_sc_true σ c ⟨{ assigned := false, value := false }, 0, 0⟩ rfl
      (by rw [hr])
    rw [hr] at hh
    rw [hh.1] at h
    exact absurd h (by simp)

/-- An unsatisfied root result exhibits a clause that evaluated to
unsatisfied under some intermediate store below the final one. -/
theorem rootLoop_false_char (p : Bool) (f : List (List Int)) :
    ∀ (σ : LiteralAssignment) (a : Assignment), σ.WF → shortCircuitAnd a = false →
      (Node.rootLoop p σ a f).1 = { assigned := true, value := false } →
      ∃ c ∈ f, ∃ σmid : LiteralAssignment, Ext σmid (Node.rootLoop p σ a f).2.1 ∧
        (Node.evaluateClause p σmid c).1 = { assigned := true, value := false } := by
  induction f with
  | nil =>
    intro σ a hW ha h
    exfalso
    have : shortCircuitAnd a = true := by
      rw [show a = { assigned := true, value := false } from h]
      rfl
    rw [ha] at this
    exact Bool.noConfusion this
  | cons c0 rest ih =>
    intro σ a hW ha h
    rw [rootLoop_cons] at h ⊢
    by_cases hsc : shortCircuitAnd (updateAnd a (Node.evaluateClause p σ c0).1)
    · rw [if_pos hsc] at h ⊢
      have ha1 := eq_of_shortCircuitAnd hsc
      -- analyse how the accumulator became unsatisfied
      rcases hca : (Node.evaluateClause p σ c0).1 with ⟨cf, cv⟩
      cases cf
      · exfalso
        rw [hca] at ha1
        unfold updateAnd at ha1
        simp only [Bool.not_false, if_pos rfl] at ha1
        exact absurd (congrArg Assignment.assigned ha1) (by simp)
      · cases cv
        · refine ⟨c0, List.mem_cons_self _ _, σ, ?_, by rw [hca]⟩
          dsimp only
          exact ((evaluateClause_propsOK p σ c0).ext hW).1
        · exfalso
          rw [hca] at ha1
          unfold updateAnd at ha1
          simp only [Bool.not_true, if_neg Bool.false_ne_true] at ha1
          rw [ha1] at ha
          exact Bool.noConfusion ha
    · rw [if_neg hsc] at h ⊢
      dsimp only at h ⊢
      have hWmid : (Node.evaluateClause p σ c0).2.1.WF :=
        ((evaluateClause_propsOK p σ c0).ext hW).2
      have hanew : shortCircuitAnd (updateAnd a (Node.evaluateClause p σ c0).1) = false := by
        rw [Bool.eq_false_iff]
        exact hsc
      rcases ih _ _ hWmid hanew h with ⟨c, hc, σmid, hE, hval⟩
      exact ⟨c, List.mem_cons_of_mem _ hc, σmid, hE, hval⟩

/-- Every propagated literal of the root loop occurs in some clause. -/
theorem rootLoop_props_mem (p : Bool) (f : List (List Int)) :
    ∀ (σ : LiteralAssignment) (a : Assignment),
      ∀ l ∈ (Node.rootLoop p σ a f).2.2, ∃ c ∈ f, l ∈ c := by
  induction f with
  | nil =>
    intro σ a l hl
    exact absurd hl (List.not_mem_nil l)
  | cons c0 rest ih =>
    intro σ a l hl
    rw [rootLoop_cons] at hl
    have hhead : ∀ x ∈ (Node.evaluateClause p σ c0).2.2, x ∈ c0 := by
      intro x hx
      rcases evaluateClause_out p σ c0 with hout | ⟨_, y, hout, hym, _⟩
      · rw [show (Node.evaluateClause p σ c0).2.2 = [] by rw [hout]] at hx
        exact absurd hx (List.not_mem_nil x)
      · rw [show (Node.evaluateClause p σ c0).2.2 = [y] by rw [hout]] at hx
        rw [List.mem_singleton.mp hx]
        exact hym
    by_cases hsc : shortCircuitAnd (updateAnd a (Node.evaluateClause p σ c0).1)
    · rw [if_pos hsc] at hl
      exact ⟨c0, List.mem_cons_self _ _, hhead l hl⟩
    · rw [if_neg hsc] at hl
      dsimp only at hl
      rcases List.mem_append.mp hl with hm | hm
      · exact ⟨c0, List.mem_cons_self _ _, hhead l hm⟩
      · rcases ih _ _ l hm with ⟨c, hc, hlc⟩
        exact ⟨c, List.mem_cons_of_mem _ hc, hlc⟩

/-- Each propagated literal is true in the final store of its trace. -/
theorem PropsOK.final_some {σ σfin : LiteralAssignment} {pr : List Int} (hW : σ.WF)
    (h : PropsOK σ pr σfin) : ∀ l ∈ pr, σfin.lookup (toVariable l) = some (litPol l) := by
  induction h with
  | nil => intro l hl; exact absurd hl (List.not_mem_nil l)
  | cons σ l rest σfin hl hnew hrec ih =>
    intro x hx
    have hW1 : (σ.assignLiteral l true).WF := σ.WF_assignLiteral hW l true
    rcases List.mem_cons.mp hx with h1 | h1
    · subst h1
      have hself := lookup_assignLiteral_true_self σ hl
      have hnotin : toVariable x ∉ rest.map toVariable := by
        intro hmem
        rcases List.mem_map.mp hmem with ⟨y, hy, hyx⟩
        have := hrec.start_none hW1 y hy
        rw [hyx, hself] at this
        exact Option.noConfusion this
      rw [hrec.lookup_preserved hW1 (toVariable x) (one_le_toVariable hl) hnotin]
      exact hself
    · exact ih hW1 x h1

/-! ## Simplifier lemmas -/

/-- The combined invariant of `Simplifier::run`: the store only grows
and stays well-formed, a satisfied result satisfies every clause, an
undetermined result is a fixpoint of the (propagating) evaluation, and
the returned result is the result of an actual evaluation pass ending
in the returned store. -/
theorem simplifierRun_spec : ∀ (fuel : Nat) (σ : LiteralAssignment) (f : List (List Int))
    (res : Assignment) (σ1 : LiteralAssignment),
    Simplifier.runFuel fuel σ f = some (res, σ1) → σ.WF →
    σ1.WF ∧ Ext σ σ1 ∧
    (res = { assigned := true, value := true } → ∀ c ∈ f, ClauseSat σ1 c) ∧
    (res.assigned = false → Node.evaluateRoot true σ1 f = (res, σ1, [])) ∧
    (∃ σp prs, σp.WF ∧ Node.evaluateRoot true σp f = (res, σ1, prs)) := by
  intro fuel
  induction fuel with
  | zero =>
    intro σ f res σ1 h
    exact absurd h (by simp [Simplifier.runFuel])
  | succ fuel ih =>
    intro σ f res σ1 h hW
    have hP := Node.evaluateRoot_propsOK true f σ
    simp only [Simplifier.runFuel] at h
    split at h
    · -- the pass assigned something and stayed undetermined: loop
      have hWmid : (Node.evaluateRoot true σ f).2.1.WF := (hP.ext hW).2
      have hress := ih _ f res σ1 h hWmid
      exact ⟨hress.1, (hP.ext hW).1.comp hress.2.1, hress.2.2⟩
    · -- the loop exits, returning this pass's result
      rename_i hexit
      simp only [Option.some.injEq, Prod.mk.injEq] at h
      obtain ⟨hres, hσ⟩ := h
      refine ⟨?_, ?_, ?_, ?_, ?_⟩
      · rw [← hσ]
        exact (hP.ext hW).2
      · rw [← hσ]
        exact (hP.ext hW).1
      · intro ht c hc
        rw [← hσ]
        refine rootLoop_sat_all true f σ { assigned := true, value := true } hW ?_ c hc
        rw [show (Node.rootLoop true σ { assigned := true, value := true } f).1 =
          (Node.evaluateRoot true σ f).1 from rfl, hres, ht]
      · intro hna
        have hprops : (Node.evaluateRoot true σ f).2.2 = [] := by
          rw [not_and_or] at hexit
          rcases hexit with hx | hx
          · exfalso
            rw [hres, hna] at hx
            simp at hx
          · simpa using hx
        have hσσ : (Node.evaluateRoot true σ f).2.1 = σ := by
          have := Node.evaluateRoot_propsOK true f σ
          rw [hprops] at this
          exact this.nil_inv
        have hσ1 : σ1 = σ := by rw [← hσ, hσσ]
        rw [hσ1, show Node.evaluateRoot true σ f =
          ((Node.evaluateRoot true σ f).1, (Node.evaluateRoot true σ f).2.1,
            (Node.evaluateRoot true σ f).2.2) from rfl, hres, hσσ, hprops]
      · exact ⟨σ, (Node.evaluateRoot true σ f).2.2, hW, by
          rw [show Node.evaluateRoot true σ f =
            ((Node.evaluateRoot true σ f).1, (Node.evaluateRoot true σ f).2.1,
              (Node.evaluateRoot true σ f).2.2) from rfl, hres, hσ]⟩

/-- Each looping pass of the simplifier assigns at least one further
variable of the formula, so `formulaVars`-many passes suffice. -/
theorem simplifierRun_suff : ∀ (n : Nat) (σ : LiteralAssignment) (f : List (List Int)),
    σ.WF → (Node.getUnassignedVariables f σ).length < n →
    (Simplifier.runFuel n σ f).isSome := by
  intro n
  induction n with
  | zero =>
    intro σ f _ h
    omega
  | succ n ih =>
    intro σ f hW hlt
    simp only [Simplifier.runFuel]
    split
    · rename_i hcont
      have hP := Node.evaluateRoot_propsOK true f σ
      have hne : (Node.evaluateRoot true σ f).2.2 ≠ [] := hcont.2
      rcases hl : (Node.evaluateRoot true σ f).2.2 with _ | ⟨l, prrest⟩
      · exact absurd hl hne
      have hlmem : l ∈ (Node.evaluateRoot true σ f).2.2 := by
        rw [hl]
        exact List.mem_cons_self _ _
      have hl0 : l ≠ 0 := hP.nonzero l hlmem
      have hnone : σ.lookup (toVariable l) = none := hP.start_none hW l hlmem
      rcases rootLoop_props_mem true f σ _ l hlmem with ⟨c, hc, hlc⟩
      have hvmem : toVariable l ∈ Node.getUnassignedVariables f σ := by
        rw [mem_getUnassignedVariables]
        exact ⟨⟨c, hc, l, hlc, hl0, rfl⟩, hnone⟩
      have hsome := hP.final_some hW l hlmem
      have hdec := getUnassignedVariables_length_lt (hP.ext hW).1 hvmem hsome
      exact ih _ f (hP.ext hW).2 (by omega)
    · simp

/-! ## Parser lemmas -/

/-- The termination measure of the parse state machine. -/
def parseMu (mode : PMode) (input : List Char) : Nat :=
  4 * input.length +
    (match mode with
     | .outer => 0
     | .clause _ => 3
     | .digits _ _ _ => 2
     | .emit _ _ => 1)

theorem skipLine_length_le (l : List Char) : (skipLine l).length ≤ l.length := by
  unfold skipLine
  have h1 : (l.dropWhile (· ≠ '\n')).length ≤ l.length := by
    induction l with
    | nil => simp [List.dropWhile]
    | cons a t ih =>
      rw [List.dropWhile]
      split
      · simp only [List.length_cons]
        omega
      · simp
  have h2 : ((l.dropWhile (· ≠ '\n')).drop 1).length ≤ (l.dropWhile (· ≠ '\n')).length := by
    rw [List.length_drop]
    omega
  omega

theorem finish_ne_outOfFuel (b : BuilderState) : ContextBuilder.finish b ≠ .outOfFuel := by
  unfold ContextBuilder.finish
  split
  · split
    · intro hc
      exact ParseResult.noConfusion hc
    · intro hc
      exact ParseResult.noConfusion hc
  · intro hc
    exact ParseResult.noConfusion hc

/-- The parse machine consumes input: the measure bounds its fuel use. -/
theorem parseRun_suff : ∀ (fuel : Nat) (mode : PMode) (input : List Char) (b : BuilderState),
    parseMu mode input < fuel → FileParser.parseRun fuel mode input b ≠ .outOfFuel := by
  intro fuel
  induction fuel with
  | zero =>
    intro mode input b hμ
    omega
  | succ fuel ih =>
    intro mode input b hμ
    match mode with
    | .outer =>
      cases input with
      | nil =>
        simp only [FileParser.parseRun]
        exact finish_ne_outOfFuel b
      | cons ch rest =>
        simp only [FileParser.parseRun]
        simp only [parseMu, List.length_cons] at hμ
        split
        · refine ih .outer (skipLine rest) b ?_
          have := skipLine_length_le rest
          simp only [parseMu]
          omega
        · split
          · refine ih .outer (skipLine rest) b ?_
            have := skipLine_length_le rest
            simp only [parseMu]
            omega
          · refine ih (.clause ch) rest b ?_
            simp only [parseMu]
            omega
    | .clause cursor =>
      simp only [FileParser.parseRun]
      simp only [parseMu] at hμ
      split
      · cases input with
        | nil =>
          dsimp only
          intro hc
          exact ParseResult.noConfusion hc
        | cons ch rest =>
          dsimp only
          refine ih (.digits ch true 0) rest b ?_
          simp only [parseMu, List.length_cons] at hμ ⊢
          omega
      · refine ih (.digits cursor false 0) input b ?_
        simp only [parseMu]
        omega
    | .digits cursor negate acc =>
      simp only [FileParser.parseRun]
      simp only [parseMu] at hμ
      split
      · cases input with
        | nil =>
          dsimp only
          refine ih (.emit negate _) [] b ?_
          simp only [parseMu]
          omega
        | cons ch rest =>
          dsimp only
          simp only [List.length_cons] at hμ
          split
          · refine ih (.emit negate _) rest b ?_
            simp only [parseMu]
            omega
          · refine ih (.digits ch negate _) rest b ?_
            simp only [parseMu]
            omega
      · intro hc
        exact ParseResult.noConfusion hc
    | .emit negate acc =>
      simp only [FileParser.parseRun]
      simp only [parseMu] at hμ
      split
      · intro hc
        exact ParseResult.noConfusion hc
      · split
        · refine ih .outer input _ ?_
          simp only [parseMu]
          omega
        · cases input with
          | nil =>
            dsimp only
            refine ih .outer [] _ ?_
            simp only [parseMu]
            omega
          | cons ch rest =>
            dsimp only
            refine ih (.clause ch) rest _ ?_
            simp only [parseMu, List.length_cons] at hμ ⊢
            omega

theorem parseInput_ne_outOfFuel (input : List Char) :
    FileParser.parseInput input ≠ .outOfFuel := by
  unfold FileParser.parseInput
  refine parseRun_suff _ .outer input _ ?_
  simp only [parseMu]
  omega

theorem addLiteral_WF {b : BuilderState} {l : Int} {b1 : BuilderState}
    (h : ContextBuilder.addLiteral b l = .ok b1) (hW : b.σ.WF) : b1.σ.WF := by
  unfold ContextBuilder.addLiteral ContextBuilder.addConjunction at h
  split at h
  · split at h
    · injection h with h2
      subst h2
      exact hW
    · split at h
      · dsimp only at h
        split at h
        · split at h
          · exact BuildStep.noConfusion h
          · injection h with h2
            subst h2
            exact hW
        · injection h with h2
          subst h2
          exact b.σ.WF_assignLiteral hW _ _
      · injection h with h2
        subst h2
        exact hW
  · injection h with h2
    subst h2
    exact hW

theorem finish_built_WF {b : BuilderState} {f : List (List Int)} {σ : LiteralAssignment}
    (h : ContextBuilder.finish b = .built f σ) (hW : b.σ.WF) : σ.WF := by
  unfold ContextBuilder.finish at h
  split at h
  · split at h
    · have h2 : b.σ = σ := by injection h
      rw [← h2]
      exact hW
    · exact ParseResult.noConfusion h
  · exact ParseResult.noConfusion h

/-- Any store handed over by the parser is well-formed. -/
theorem parseRun_built_WF : ∀ (fuel : Nat) (mode : PMode) (input : List Char)
    (b : BuilderState) (f : List (List Int)) (σ : LiteralAssignment),
    FileParser.parseRun fuel mode input b = .built f σ → b.σ.WF → σ.WF := by
  intro fuel
  induction fuel with
  | zero =>
    intro mode input b f σ h _
    exact absurd h (by simp [FileParser.parseRun])
  | succ fuel ih =>
    intro mode input b f σ h hW
    match mode with
    | .outer =>
      match input with
      | [] =>
        simp only [FileParser.parseRun] at h
        exact finish_built_WF h hW
      | ch :: rest =>
        simp only [FileParser.parseRun] at h
        split at h
        · exact ih _ _ _ _ _ h hW
        · split at h
          · exact ih _ _ _ _ _ h hW
          · exact ih _ _ _ _ _ h hW
    | .clause cursor =>
      simp only [FileParser.parseRun] at h
      split at h
      · match input, h with
        | [], h => exact ParseResult.noConfusion h
        | ch :: rest, h => exact ih _ _ _ _ _ h hW
      · exact ih _ _ _ _ _ h hW
    | .digits cursor negate acc =>
      simp only [FileParser.parseRun] at h
      split at h
      · cases input with
        | nil =>
          dsimp only at h
          exact ih _ _ _ _ _ h hW
        | cons ch rest =>
          dsimp only at h
          split at h
          · exact ih _ _ _ _ _ h hW
          · exact ih _ _ _ _ _ h hW
      · exact ParseResult.noConfusion h
    | .emit negate acc =>
      simp only [FileParser.parseRun] at h
      split at h
      · exact ParseResult.noConfusion h
      · rename_i b1 heq
        have hW1 : b1.σ.WF := addLiteral_WF heq hW
        split at h
        · exact ih _ _ _ _ _ h hW1
        · match input, h with
          | [], h => exact ih _ _ _ _ _ h hW1
          | ch :: rest, h => exact ih _ _ _ _ _ h hW1

/-! ## Totality of the pipeline -/

/-- The phase pipeline (Simplify then DPLL) always produces a verdict:
both fueled loops are run with fuel exceeding their measures. -/
theorem solverPhasesFull_total (f : List (List Int)) (σ0 : LiteralAssignment)
    (hW : σ0.WF) : (solverPhasesFull f σ0).isSome := by
  have hs := simplifierRun_suff (simplifierFuel f) σ0 f hW (by
    have := getUnassignedVariables_length_le f σ0
    simp only [simplifierFuel]
    omega)
  obtain ⟨⟨res, σ1⟩, heq⟩ := Option.isSome_iff_exists.mp hs
  have hspec := simplifierRun_spec _ _ _ _ _ heq hW
  unfold solverPhasesFull
  rw [heq]
  dsimp only
  split
  · split
    · simp
    · simp
  · have hd := dpllGo_suff (dpllMu (Node.simplifyFormula σ1 f) (.step ⟨σ1, []⟩) + 1)
        (Node.simplifyFormula σ1 f) (.step ⟨σ1, []⟩) hspec.1 trivial (by omega)
    obtain ⟨⟨a, st, log⟩, hdeq⟩ := Option.isSome_iff_exists.mp hd
    rw [hdeq]
    dsimp only
    split
    · simp
    · simp

/-- The whole program is total: parsing runs out of neither fuel nor
builder, and the phases always answer. -/
theorem solverRun_total (input : List Char) : (solverRun input).isSome := by
  unfold solverRun
  rcases hp : FileParser.parseInput input with _ | _ | _ | ⟨f, σ0⟩
  · exact absurd hp (parseInput_ne_outOfFuel input)
  · simp
  · simp
  · have hW : σ0.WF := by
      unfold FileParser.parseInput at hp
      exact parseRun_built_WF _ _ _ _ _ _ hp LiteralAssignment.WF_init
    have h1 := solverPhasesFull_total f σ0 hW
    obtain ⟨p, hpeq⟩ := Option.isSome_iff_exists.mp h1
    simp [solverPhases, hpeq]

/-! ## Clause ingestion, literal by literal -/

/-- Feeding the literals of the parse stream to `ContextBuilder::addLiteral`
one at a time, stopping at the conflict exit. -/
def ContextBuilder.addLiterals (b : BuilderState) : List Int → BuildStep
  | [] => .ok b
  | l :: rest =>
    match ContextBuilder.addLiteral b l with
    | .conflictExit => .conflictExit
    | .ok b1 => ContextBuilder.addLiterals b1 rest

theorem addLiterals_append (xs ys : List Int) : ∀ b : BuilderState,
    ContextBuilder.addLiterals b (xs ++ ys) =
      match ContextBuilder.addLiterals b xs with
      | .conflictExit => .conflictExit
      | .ok b1 => ContextBuilder.addLiterals b1 ys := by
  induction xs with
  | nil => intro b; rfl
  | cons l rest ih =>
    intro b
    simp only [List.cons_append, ContextBuilder.addLiterals]
    cases h : ContextBuilder.addLiteral b l with
    | conflictExit => rfl
    | ok b1 => exact ih b1

/-- Nonzero literals are buffered verbatim, in order, duplicates and
complementary pairs included. -/
theorem addLiterals_push (c : List Int) : ∀ b : BuilderState, (∀ l ∈ c, l ≠ 0) →
    ContextBuilder.addLiterals b c = .ok { b with current := b.current ++ c } := by
  induction c with
  | nil =>
    intro b _
    show BuildStep.ok b = _
    rw [List.append_nil]
  | cons l rest ih =>
    intro b hnz
    simp only [ContextBuilder.addLiterals]
    rw [show ContextBuilder.addLiteral b l = .ok { b with current := b.current ++ [l] } from by
      unfold ContextBuilder.addLiteral
      rw [if_neg (hnz l (List.mem_cons_self _ _))]]
    dsimp only
    rw [ih _ fun x hx => hnz x (List.mem_cons_of_mem _ hx)]
    simp [List.append_assoc]

/-- A buffered clause of two or more literals is stored verbatim by
`ContextBuilder::addConjunction` — no sort, no deduplication, no
tautology check. -/
theorem addConjunction_stores (b : BuilderState) (h2 : 2 ≤ b.current.length) :
    ContextBuilder.addConjunction b =
      .ok { b with current := [], nodes := b.nodes ++ [b.current] } := by
  unfold ContextBuilder.addConjunction
  rw [if_neg (by omega), if_neg (by omega)]

/-- End to end for one parsed clause: from an empty buffer, the literal
stream `c ++ [0]` stores exactly the list `c`, verbatim. -/
theorem builder_stores_verbatim (b : BuilderState) (c : List Int)
    (hcur : b.current = []) (hnz : ∀ l ∈ c, l ≠ 0) (h2 : 2 ≤ c.length) :
    ContextBuilder.addLiterals b (c ++ [0]) =
      .ok { current := [], nodes := b.nodes ++ [c], σ := b.σ } := by
  rw [addLiterals_append, addLiterals_push c b hnz]
  have hc : ({ b with current := b.current ++ c } : BuilderState).current = c := by
    rw [hcur]
    rfl
  simp only [ContextBuilder.addLiterals]
  rw [show ContextBuilder.addLiteral { b with current := b.current ++ c } 0 =
      ContextBuilder.addConjunction { b with current := b.current ++ c } from by
    unfold ContextBuilder.addLiteral
    rw [if_pos rfl]]
  rw [addConjunction_stores _ (by rw [hc]; omega)]
  simp only [ContextBuilder.addLiterals]
  rw [hcur]
  rfl

/-- Feeding a literal stream to `GraphSolver::addLiteral` in order. -/
def GraphSolver.addLiterals (st : GraphSolverState) (ls : List Int) : GraphSolverState :=
  ls.foldl GraphSolver.addLiteral st

/-- The pending `std::set` after inserting every literal of `c`. -/
def sortedInsertAll (c : List Int) (s : List Int) : List Int :=
  c.foldl (fun acc l => setInsert l acc) s

theorem setInsert_ne_nil (x : Int) (l : List Int) : setInsert x l ≠ [] := by
  cases l with
  | nil => simp [setInsert]
  | cons y rest =>
    unfold setInsert
    split
    · simp
    · split
      · simp
      · simp

theorem mem_setInsert (x y : Int) : ∀ l : List Int, (y ∈ setInsert x l ↔ y = x ∨ y ∈ l) := by
  intro l
  induction l with
  | nil => simp [setInsert]
  | cons z rest ih =>
    unfold setInsert
    split
    · simp [List.mem_cons]
    · split
      · rename_i h1 h2
        subst h2
        simp only [List.mem_cons]
        tauto
      · simp only [List.mem_cons, ih]
        tauto

theorem setInsert_sorted (x : Int) : ∀ {l : List Int}, l.Sorted (· < ·) →
    (setInsert x l).Sorted (· < ·) := by
  intro l
  induction l with
  | nil =>
    intro _
    simp [setInsert]
  | cons z rest ih =>
    intro hs
    rw [List.sorted_cons] at hs
    unfold setInsert
    split
    · rename_i h1
      rw [List.sorted_cons]
      refine ⟨?_, ?_⟩
      · intro b hb
        rcases List.mem_cons.mp hb with rfl | hb2
        · exact h1
        · exact lt_trans h1 (hs.1 b hb2)
      · rw [List.sorted_cons]
        exact hs
    · split
      · rw [List.sorted_cons]
        exact hs
      · rename_i h1 h2
        rw [List.sorted_cons]
        refine ⟨?_, ih hs.2⟩
        intro b hb
        rcases (mem_setInsert x b rest).mp hb with rfl | hb2
        · omega
        · exact hs.1 b hb2

theorem mem_sortedInsertAll (c : List Int) : ∀ (s : List Int) (y : Int),
    (y ∈ sortedInsertAll c s ↔ y ∈ c ∨ y ∈ s) := by
  induction c with
  | nil =>
    intro s y
    simp [sortedInsertAll]
  | cons l rest ih =>
    intro s y
    show y ∈ sortedInsertAll rest (setInsert l s) ↔ _
    rw [ih, mem_setInsert]
    simp only [List.mem_cons]
    tauto

theorem sortedInsertAll_sorted (c : List Int) : ∀ {s : List Int}, s.Sorted (· < ·) →
    (sortedInsertAll c s).Sorted (· < ·) := by
  induction c with
  | nil =>
    intro s h
    exact h
  | cons l rest ih =>
    intro s h
    exact ih (setInsert_sorted l h)

theorem sortedInsertAll_ne_nil (c : List Int) : ∀ s : List Int, s ≠ [] →
    sortedInsertAll c s ≠ [] := by
  induction c with
  | nil =>
    intro s h
    exact h
  | cons l rest ih =>
    intro s _
    exact ih _ (setInsert_ne_nil l s)

/-- Literals accumulate in the pending set while no `0` arrives. -/
theorem graph_addLiterals_insert (c : List Int) : ∀ st : GraphSolverState, (∀ l ∈ c, l ≠ 0) →
    GraphSolver.addLiterals st c =
      { st with currentLiterals := sortedInsertAll c st.currentLiterals } := by
  induction c with
  | nil =>
    intro st _
    rfl
  | cons l rest ih =>
    intro st hnz
    show GraphSolver.addLiterals (GraphSolver.addLiteral st l) rest = _
    rw [show GraphSolver.addLiteral st l =
        { st with currentLiterals := setInsert l st.currentLiterals } from by
      unfold GraphSolver.addLiteral
      rw [if_neg (by
        intro hc
        exact hnz l (List.mem_cons_self _ _) hc.1)]]
    rw [ih _ fun x hx => hnz x (List.mem_cons_of_mem _ hx)]
    rfl

/-- End to end for one clause fed to `GraphSolver`: the stream `c ++ [0]`
from an empty pending set stores the ascending duplicate-free set of the
literals of `c` — duplicates are collapsed, but a complementary pair
`v, -v` is stored like any other two literals. -/
theorem graphSolver_stores (st : GraphSolverState) (c : List Int)
    (hnz : ∀ l ∈ c, l ≠ 0) (hcur : st.currentLiterals = []) (hne : c ≠ []) :
    GraphSolver.addLiterals st (c ++ [0]) =
      { currentLiterals := [], clauses := st.clauses ++ [sortedInsertAll c []] } := by
  show (c ++ [0]).foldl GraphSolver.addLiteral st = _
  rw [List.foldl_append]
  rw [show List.foldl GraphSolver.addLiteral st c =
      { st with currentLiterals := sortedInsertAll c st.currentLiterals } from
    graph_addLiterals_insert c st hnz]
  show GraphSolver.addLiteral _ 0 = _
  unfold GraphSolver.addLiteral
  rw [if_pos ⟨rfl, by
    rcases c with _ | ⟨l, rest⟩
    · exact absurd rfl hne
    · show sortedInsertAll rest (setInsert l st.currentLiterals) ≠ []
      exact sortedInsertAll_ne_nil rest _ (setInsert_ne_nil l _)⟩]
  rw [hcur]

/-! ## From the simplified formula back to the original clauses -/

/-- A satisfied simplified formula satisfies the original one: every
dropped clause was already satisfied on the simplifier store, and a kept
clause is satisfied through its filtered residue. -/
theorem simplifyFormula_sat_transfer {σ1 σf : LiteralAssignment} {f : List (List Int)}
    (hE : Ext σ1 σf)
    (hsat : ∀ c ∈ Node.simplifyFormula σ1 f, ClauseSat σf c) :
    ∀ c ∈ f, ClauseSat σf c := by
  intro c hc
  by_cases hdrop : ((Node.evaluateClause false σ1 c).1.assigned &&
      (Node.evaluateClause false σ1 c).1.value) = true
  · have h1 : ClauseSat σ1 c := by
      unfold ClauseSat
      rw [Bool.and_eq_true] at hdrop
      exact Assignment.eq_tt hdrop.1 hdrop.2
    exact h1.mono hE
  · have hmem : (c.filter fun l => !(l == 0) && !(σ1.getLiteralAssignment l).assigned) ∈
        Node.simplifyFormula σ1 f := by
      unfold Node.simplifyFormula
      refine List.mem_map.mpr ⟨c, ?_, rfl⟩
      refine List.mem_filter.mpr ⟨hc, ?_⟩
      simp only [Bool.not_eq_true] at hdrop ⊢
      rw [hdrop]
      rfl
    have h2 := hsat _ hmem
    rw [ClauseSat_iff] at h2 ⊢
    rcases h2 with ⟨l, hl, hl0, hlt⟩
    exact ⟨l, (List.mem_filter.mp hl).1, hl0, hlt⟩

/-- A satisfied clause evaluates to `{true, true}` under either callback,
short-circuiting without touching the store. -/
theorem evaluateClause_of_sat (p : Bool) (σ : LiteralAssignment) (c : List Int)
    (h : ClauseSat σ c) :
    Node.evaluateClause p σ c = ({ assigned := true, value := true }, σ, []) := by
  rw [ClauseSat_iff] at h
  have hsc := evalLoop_sc_of_true σ c ⟨{ assigned := false, value := false }, 0, 0⟩ rfl h
  unfold Node.evaluateClause
  rcases hr : Clause.evalLoop σ c ⟨{ assigned := false, value := false }, 0, 0⟩ with ⟨s, sc⟩
  rw [hr] at hsc
  cases sc
  · exact absurd hsc.1 (by simp)
  · dsimp only
    rw [show s.a = { assigned := true, value := true } from hsc.2]

/-- When every clause is already satisfied the root evaluation is a
no-op returning `{true, true}`. -/
theorem rootLoop_of_all_sat (p : Bool) (f : List (List Int)) :
    ∀ σ : LiteralAssignment, (∀ c ∈ f, ClauseSat σ c) →
      Node.rootLoop p σ { assigned := true, value := true } f =
        ({ assigned := true, value := true }, σ, []) := by
  induction f with
  | nil =>
    intro σ _
    rfl
  | cons c rest ih =>
    intro σ hsat
    rw [rootLoop_cons, evaluateClause_of_sat p σ c (hsat c (List.mem_cons_self _ _))]
    rw [show updateAnd { assigned := true, value := true }
        ({ assigned := true, value := true }, σ, ([] : List Int)).1 =
        { assigned := true, value := true } from rfl]
    rw [if_neg (by simp [shortCircuitAnd])]
    rw [ih σ fun c2 hc2 => hsat c2 (List.mem_cons_of_mem _ hc2)]
    rfl

/-- Every verdict the phase pipeline emits is `sat` or `unsat`, never the
input-error exit. -/
theorem solverPhasesFull_not_inputError (f : List (List Int)) (σ0 : LiteralAssignment)
    (v : Verdict) (σf : LiteralAssignment) (h : solverPhasesFull f σ0 = some (v, σf)) :
    v ≠ .inputError := by
  unfold solverPhasesFull at h
  split at h
  · exact Option.noConfusion h
  · split at h
    · split at h
      · intro hv
        rw [hv] at h
        simp at h
      · intro hv
        rw [hv] at h
        simp at h
    · dsimp only at h
      split at h
      · exact Option.noConfusion h
      · split at h
        · intro hv
          rw [hv] at h
          simp at h
        · intro hv
          rw [hv] at h
          simp at h

/-- The first log entry of a guess is the decision itself. -/
theorem dpllGuess_log_head (f : List (List Int)) (st : DPLLState) (lit : Int) :
    LogEntry.assignEntry lit false ∈ (dpllGuess f st lit).2.2 :=
  List.mem_cons_self _ _

/-- Whether a log entry records a clause installation. -/
def LogEntry.isAddClause : LogEntry → Bool
  | .addClause _ => true
  | _ => false

/-- The variables recorded on a trail, top first. -/
def trailVars (st : DPLLState) : List Nat :=
  st.trail.map fun s => toVariable s.assignment

/-- The decision score described by the specification's CDCL section (no
such quantity appears in the code): the larger of the positive and the
negative occurrence counts of the variable. -/
def specScore (f : List (List Int)) (v : Nat) : Nat :=
  max (f.countP fun c => c.contains ((v : Int)))
    (f.countP fun c => c.contains (-(v : Int)))

/-- In a loop iteration on variable `v` whose overall result is not SAT,
both polarities of `v` were explicitly guessed (first the positive
literal, then after unwinding the negative one). -/
theorem dpllGo_two_guesses (fuel : Nat) (f : List (List Int)) (v : Nat)
    (rest : List Nat) (st : DPLLState) (res : Assignment) (st9 : DPLLState)
    (log : List LogEntry)
    (h : dpllGo (fuel + 1) f (.loop (v :: rest) st) = some (res, st9, log))
    (hns : ¬(res.assigned = true ∧ res.value = true)) :
    LogEntry.assignEntry (toLiteral v false) false ∈ log ∧
      LogEntry.assignEntry (toLiteral v true) false ∈ log := by
  simp only [dpllGo] at h
  split at h
  · exfalso
    apply hns
    injection h with h2
    have hres : { assigned := true, value := true } = res := by
      have := congrArg Prod.fst h2
      simpa using this
    rw [← hres]
    exact ⟨rfl, rfl⟩
  · split at h
    · exact Option.noConfusion h
    · rename_i a2 st3 log2 heq2
      split at h
      · exfalso
        apply hns
        injection h with h2
        have hres : { assigned := true, value := true } = res := by
          have := congrArg Prod.fst h2
          simpa using this
        rw [← hres]
        exact ⟨rfl, rfl⟩
      · split at h
        · exfalso
          apply hns
          injection h with h2
          have hres : { assigned := true, value := true } = res := by
            have := congrArg Prod.fst h2
            simpa using this
          rw [← hres]
          exact ⟨rfl, rfl⟩
        · split at h
          · exact Option.noConfusion h
          · rename_i a4 st7 log4 heq4
            split at h
            · exfalso
              apply hns
              injection h with h2
              have hres : { assigned := true, value := true } = res := by
                have := congrArg Prod.fst h2
                simpa using this
              rw [← hres]
              exact ⟨rfl, rfl⟩
            · split at h
              · exact Option.noConfusion h
              · rename_i a5 st9b log5 heq5
                injection h with h2
                have hlog : (dpllGuess f st (toLiteral v false)).2.2 ++ log2 ++
                    (dpllGuess f (DPLL.unwind st3) (toLiteral v true)).2.2 ++
                    log4 ++ log5 = log := by
                  have := congrArg (fun p => p.2.2) h2
                  simpa using this
                rw [← hlog]
                constructor
                · simp only [List.mem_append]
                  exact .inl (.inl (.inl (.inl (dpllGuess_log_head f st _))))
                · simp only [List.mem_append]
                  exact .inl (.inl (.inr (dpllGuess_log_head f _ _)))

/-! ## The claims -/

/-- C10: for a variable id of at least 1 and beyond the current maximum,
`LiteralAssignment::getVariableAssignment` returns `{assigned = false}`
(and, being pure here, grows nothing), so `getLiteralAssignment` reports
every such literal unassigned. -/
theorem C10_lookup_total : ∀ (σ : LiteralAssignment) (id : Nat), 1 ≤ id →
    σ.getMaxVariable < id →
    σ.getVariableAssignment id = { assigned := false, value := false } ∧
    ∀ l : Int, l ≠ 0 → toVariable l = id → (σ.getLiteralAssignment l).assigned = false := by
  intro σ id h1 hgt
  have hva : σ.getVariableAssignment id = { assigned := false, value := false } := by
    unfold LiteralAssignment.getVariableAssignment
    rw [if_pos hgt]
  refine ⟨hva, ?_⟩
  intro l _ hvar
  unfold LiteralAssignment.getLiteralAssignment
  dsimp only
  rw [hvar, hva]

theorem C10_witness :
    1 ≤ 5 ∧ LiteralAssignment.init.getMaxVariable < 5 ∧
    LiteralAssignment.init.getVariableAssignment 5 = { assigned := false, value := false } ∧
    (LiteralAssignment.init.getLiteralAssignment (-5)).assigned = false :=
  ⟨by decide, by decide, (C10_lookup_total _ 5 (by decide) (by decide)).1,
    (C10_lookup_total _ 5 (by decide) (by decide)).2 (-5) (by decide) (by decide)⟩

/-- C9: an input that builds no clauses and no assignments is answered
SAT with the empty model line and exit code 0, the zero-child root `AND`
evaluating to `{assigned = true, value = true}` in the Simplify phase. -/
theorem C9_empty_formula_sat : ∀ input : List Char,
    FileParser.parseInput input = .built [] LiteralAssignment.init →
    solverRun input = some (.sat []) ∧
    exitCode (.sat []) = 0 ∧
    Node.evaluateRoot true LiteralAssignment.init [] =
      ({ assigned := true, value := true }, LiteralAssignment.init, []) := by
  intro input h
  refine ⟨?_, rfl, rfl⟩
  unfold solverRun
  rw [h]
  rfl

theorem C9_witness :
    FileParser.parseInput ("c hi\np cnf 0 0\n".toList) = .built [] LiteralAssignment.init ∧
    solverRun ("c hi\np cnf 0 0\n".toList) = some (.sat []) :=
  ⟨by decide, (C9_empty_formula_sat _ (by decide)).1⟩

/-- C4 counterexample: malformed input (an unexpected character) exits
through `ASSURE`, which calls `exit(1)` — the same code as UNSAT, not a
nonzero code different from 1; so neither "exit 1 exactly on UNSAT" nor
"nonzero ≠ 1 on malformed input" holds. -/
theorem C4_counterexample :
    solverRun ("x".toList) = some .inputError ∧
    exitCode .inputError = 1 ∧ printsUNSAT .inputError = false := by
  refine ⟨by decide, rfl, rfl⟩

/-- C4 (amended): the solver exits 0 exactly when it prints a model; it
exits 1 both when it prints UNSAT and on malformed input (the `ASSURE`
macro also calls `exit(1)`), so exit code 1 does not discriminate the
two. -/
theorem C4_exit_codes : ∀ (input : List Char) (v : Verdict),
    solverRun input = some v →
    (exitCode v = 0 ↔ printsModel v = true) ∧
    (exitCode v = 1 ↔ (printsUNSAT v = true ∨ v = .inputError)) ∧
    (v = .inputError → exitCode v = 1) := by
  intro input v _
  rcases v with m | _ | _
  · exact ⟨by simp [exitCode, printsModel], by simp [exitCode, printsUNSAT], by simp⟩
  · exact ⟨by simp [exitCode, printsModel], by simp [exitCode, printsUNSAT], by simp⟩
  · exact ⟨by simp [exitCode, printsModel], by simp [exitCode, printsUNSAT], by simp [exitCode]⟩

theorem C4_witness :
    solverRun ("x".toList) = some Verdict.inputError ∧
    (exitCode Verdict.inputError = 1 ↔
      (printsUNSAT Verdict.inputError = true ∨ Verdict.inputError = Verdict.inputError)) :=
  ⟨by decide, (C4_exit_codes ("x".toList) Verdict.inputError (by decide)).2.1⟩

/-- C5 counterexample: the live ingest path (`ContextBuilder`) stores the
tautology `[1, -1]` and the duplicate-carrying clause `[1, 1, 2]`
verbatim, and even the dead `GraphSolver::addLiteral` path stores the
tautology (merely sorted and deduplicated). -/
theorem C5_counterexample :
    ContextBuilder.addLiterals BuilderState.init ([1, -1] ++ [0]) =
      .ok ⟨[], [[1, -1]], LiteralAssignment.init⟩ ∧
    ContextBuilder.addLiterals BuilderState.init ([1, 1, 2] ++ [0]) =
      .ok ⟨[], [[1, 1, 2]], LiteralAssignment.init⟩ ∧
    GraphSolver.addLiterals ⟨[], []⟩ ([1, -1] ++ [0]) = ⟨[], [[-1, 1]]⟩ := by
  exact ⟨by decide, by decide, by decide⟩

/-- C5 (amended): neither ingest path rejects tautologies — the builder
stores every clause of two or more literals verbatim (duplicates and
complementary pairs included), and `GraphSolver` stores the ascending
duplicate-free set of the clause's literals (so duplicates are
collapsed, but a complementary pair is kept). -/
theorem C5_ingest_verbatim :
    (∀ (b : BuilderState) (c : List Int), b.current = [] →
      c.all (fun l => !(l == 0)) = true → 2 ≤ c.length →
      ContextBuilder.addLiterals b (c ++ [0]) = .ok ⟨[], b.nodes ++ [c], b.σ⟩) ∧
    (∀ (st : GraphSolverState) (c : List Int), st.currentLiterals = [] →
      c.all (fun l => !(l == 0)) = true → c ≠ [] →
      GraphSolver.addLiterals st (c ++ [0]) = ⟨[], st.clauses ++ [sortedInsertAll c []]⟩ ∧
      (∀ y : Int, y ∈ sortedInsertAll c [] ↔ y ∈ c) ∧
      (sortedInsertAll c []).Sorted (· < ·)) := by
  constructor
  · intro b c hcur hall h2
    have hnz : ∀ l ∈ c, l ≠ 0 := by
      intro l hl
      have := List.all_eq_true.mp hall l hl
      simpa using this
    exact builder_stores_verbatim b c hcur hnz h2
  · intro st c hcur hall hne
    have hnz : ∀ l ∈ c, l ≠ 0 := by
      intro l hl
      have := List.all_eq_true.mp hall l hl
      simpa using this
    refine ⟨?_, ?_, sortedInsertAll_sorted c List.sorted_nil⟩
    · rw [graphSolver_stores st c hnz hcur hne]
    · intro y
      rw [mem_sortedInsertAll]
      simp

theorem C5_witness :
    ([3, -7, 3] : List Int).all (fun l => !(l == 0)) = true ∧
    ContextBuilder.addLiterals ⟨[], [], LiteralAssignment.init⟩ ([3, -7, 3] ++ [0]) =
      .ok ⟨[], [[3, -7, 3]], LiteralAssignment.init⟩ ∧
    GraphSolver.addLiterals ⟨[], []⟩ ([3, -7, 3] ++ [0]) = ⟨[], [[-7, 3]]⟩ :=
  ⟨by decide,
    C5_ingest_verbatim.1 ⟨[], [], LiteralAssignment.init⟩ [3, -7, 3] rfl (by decide) (by decide),
    (C5_ingest_verbatim.2 ⟨[], []⟩ [3, -7, 3] rfl (by decide) (by decide)).1⟩

/-- C3 counterexample: the solver does not always reach a SAT or UNSAT
verdict.  Ingesting one more clause into a builder already holding
`BUFFER_SIZE = 1048576` clause nodes is accepted, but
`ContextBuilder::finish` then fails the single-page `ASSURE` of
`Memory::all()` and exits 1 with no verdict — neither a model line nor
`UNSAT` is printed. -/
theorem C3_counterexample :
    ContextBuilder.addLiterals ⟨[], List.replicate 1048576 [1, 2], LiteralAssignment.init⟩
        ([1, 2] ++ [0]) =
      .ok ⟨[], List.replicate 1048577 [1, 2], LiteralAssignment.init⟩ ∧
    ContextBuilder.finish ⟨[], List.replicate 1048577 [1, 2], LiteralAssignment.init⟩ =
      .inputError ∧
    printsModel .inputError = false ∧ printsUNSAT .inputError = false := by
  refine ⟨?_, ?_, rfl, rfl⟩
  · rw [builder_stores_verbatim ⟨[], List.replicate 1048576 [1, 2], LiteralAssignment.init⟩
      [1, 2] rfl (by decide) (by decide)]
    have hrep : List.replicate 1048576 ([1, 2] : List Int) ++ [[1, 2]] =
        List.replicate 1048577 [1, 2] := by
      rw [show (1048577 : Nat) = 1048576 + 1 from rfl]
      exact (List.replicate_succ' _ _).symm
    show BuildStep.ok ⟨[], List.replicate 1048576 [1, 2] ++ [[1, 2]],
      LiteralAssignment.init⟩ = _
    rw [hrep]
  · unfold ContextBuilder.finish
    dsimp only
    simp only [List.isEmpty_nil]
    rw [if_pos trivial, if_neg (by rw [List.length_replicate]; omega)]

/-- C3 (amended): the solver always terminates — the parser consumes its
input, `Simplifier::run` strictly grows the assignment and `DPLL::step`
strictly shrinks the unassigned-variable set — and every input the
Build phase accepts is answered SAT or UNSAT; but a formula storing
more than `BUFFER_SIZE = 1048576` clause nodes fails the single-page
`ASSURE` of `Memory::all()` inside `ContextBuilder::finish` and exits 1
with no verdict. -/
theorem C3_terminates :
    (∀ input : List Char, (solverRun input).isSome) ∧
    (∀ (input : List Char) (f : List (List Int)) (σ0 : LiteralAssignment),
      FileParser.parseInput input = .built f σ0 →
      (solverRun input).map (fun v => printsModel v || printsUNSAT v) = some true) ∧
    (∀ b : BuilderState, b.current = [] → 1048576 < b.nodes.length →
      ContextBuilder.finish b = .inputError) := by
  refine ⟨solverRun_total, ?_, ?_⟩
  · intro input f σ0 hp
    have hW : σ0.WF := by
      unfold FileParser.parseInput at hp
      exact parseRun_built_WF _ _ _ _ _ _ hp LiteralAssignment.WF_init
    obtain ⟨⟨v, σf⟩, heq⟩ := Option.isSome_iff_exists.mp (solverPhasesFull_total f σ0 hW)
    have hne := solverPhasesFull_not_inputError f σ0 v σf heq
    unfold solverRun
    rw [hp]
    simp only [solverPhases, heq, Option.map_map, Option.map_some]
    rcases v with m | _ | _
    · rfl
    · rfl
    · exact absurd rfl hne
  · intro b hcur hlen
    unfold ContextBuilder.finish
    rw [hcur]
    simp only [List.isEmpty_nil]
    rw [if_pos trivial, if_neg (by omega)]

theorem C3_witness :
    FileParser.parseInput ("1 0\n".toList) = .built [] ⟨[true, true]⟩ ∧
    (solverRun ("1 0\n".toList)).map (fun v => printsModel v || printsUNSAT v) = some true ∧
    ContextBuilder.finish ⟨[], List.replicate 1048577 [1, 2], LiteralAssignment.init⟩ =
      .inputError :=
  ⟨by decide, C3_terminates.2.1 ("1 0\n".toList) [] ⟨[true, true]⟩ (by decide),
    C3_terminates.2.2 ⟨[], List.replicate 1048577 [1, 2], LiteralAssignment.init⟩ rfl
      (by rw [List.length_replicate]; omega)⟩

/-- C2 counterexample: a complete engine run on an unsatisfiable formula
passes through four conflicts, yet its log records no clause
installation at all — `DPLL::step` contains no learning. -/
theorem C2_counterexample :
    (dpllGo 100 [[1, 2], [1, -2], [-1, 2], [-1, -2]]
        (DCall.step ⟨LiteralAssignment.init, []⟩)).map
      (fun r => (decide (LogEntry.conflict ∈ r.2.2),
        r.2.2.all fun e => ! e.isAddClause)) = some (true, true) := by
  decide

/-- C2 (amended): no run of `DPLL::step` ever installs a clause; the
engine revisits the search space with explicit second guesses instead of
learning from conflicts. -/
theorem C2_no_clause_learning : ∀ (fuel : Nat) (f : List (List Int)) (call : DCall)
    (res : Assignment) (st1 : DPLLState) (log : List LogEntry),
    call.state.assignments.WF → CallVarsOK f call →
    dpllGo fuel f call = some (res, st1, log) →
    ∀ c : List Int, LogEntry.addClause c ∉ log := by
  intro fuel f call res st1 log hW hOK h
  exact (dpllGo_spec fuel f call res st1 log h hW hOK).2.2.2.2

theorem C2_witness :
    LiteralAssignment.init.WF ∧
    dpllGo 100 [[1, 2], [1, -2], [-1, 2], [-1, -2]] (DCall.step ⟨LiteralAssignment.init, []⟩) =
      some ({ assigned := false, value := false }, ⟨⟨[false, true, false, false]⟩, []⟩,
        [.assignEntry 1 false, .assignEntry 2 true, .conflict,
         .assignEntry (-1) false, .assignEntry 2 true, .conflict,
         .assignEntry 2 false, .assignEntry 1 true, .conflict,
         .assignEntry (-2) false, .assignEntry 1 true, .conflict]) ∧
    LogEntry.addClause [1] ∉
      ([.assignEntry 1 false, .assignEntry 2 true, .conflict,
        .assignEntry (-1) false, .assignEntry 2 true, .conflict,
        .assignEntry 2 false, .assignEntry 1 true, .conflict,
        .assignEntry (-2) false, .assignEntry 1 true, .conflict] : List LogEntry) :=
  ⟨rfl, by decide,
    C2_no_clause_learning 100 [[1, 2], [1, -2], [-1, 2], [-1, -2]]
      (DCall.step ⟨LiteralAssignment.init, []⟩) { assigned := false, value := false }
      ⟨⟨[false, true, false, false]⟩, []⟩ _ rfl trivial (by decide) [1]⟩

/-- C6 counterexample: on the formula `[[1,2],[-2,3],[2,3]]` the engine's
variable list is `[1,2,3]`, which is not descending in the
specification's score (the score of 2 exceeds the score of 1); and a
concrete run's log contains the explicit negative decision
`assign(-1, false)` — the false branch is a second guess, not implicit
clause learning. -/
theorem C6_counterexample :
    (((Node.getUnassignedVariables [[1, 2], [-2, 3], [2, 3]] LiteralAssignment.init).zip
        (Node.getUnassignedVariables [[1, 2], [-2, 3], [2, 3]] LiteralAssignment.init).tail).all
      fun p => decide (specScore [[1, 2], [-2, 3], [2, 3]] p.2 ≤
        specScore [[1, 2], [-2, 3], [2, 3]] p.1)) = false ∧
    (dpllGo 100 [[1, 2], [1, -2], [-1, 2], [-1, -2]]
        (DCall.step ⟨LiteralAssignment.init, []⟩)).map
      (fun r => decide (LogEntry.assignEntry (-1) false ∈ r.2.2)) = some true := by
  exact ⟨by decide, by decide⟩

/-- C6 (amended): the engine's variable list is sorted ascending by
variable id (the `std::set` iteration order — no score is computed
anywhere), and a loop iteration that does not return SAT guesses the
variable explicitly in both polarities, positive first. -/
theorem C6_decision_order :
    (∀ (f : List (List Int)) (σ : LiteralAssignment),
      List.Sorted (· ≤ ·) (Node.getUnassignedVariables f σ)) ∧
    (∀ (fuel : Nat) (f : List (List Int)) (v : Nat) (rest : List Nat) (st : DPLLState)
        (res : Assignment) (st9 : DPLLState) (log : List LogEntry),
      dpllGo (fuel + 1) f (.loop (v :: rest) st) = some (res, st9, log) →
      ¬(res.assigned = true ∧ res.value = true) →
      LogEntry.assignEntry (toLiteral v false) false ∈ log ∧
        LogEntry.assignEntry (toLiteral v true) false ∈ log) :=
  ⟨fun f σ => getUnassignedVariables_sorted f σ,
    fun fuel f v rest st res st9 log h hns => dpllGo_two_guesses fuel f v rest st res st9 log h hns⟩

theorem C6_witness :
    List.Sorted (· ≤ ·)
      (Node.getUnassignedVariables [[1, 2], [-2, 3], [2, 3]] LiteralAssignment.init) ∧
    dpllGo 99 [[1, 2], [1, -2], [-1, 2], [-1, -2]]
        (DCall.loop [1, 2] ⟨LiteralAssignment.init, []⟩) =
      some ({ assigned := false, value := false }, ⟨⟨[false, true, false, false]⟩, []⟩,
        [.assignEntry 1 false, .assignEntry 2 true, .conflict,
         .assignEntry (-1) false, .assignEntry 2 true, .conflict,
         .assignEntry 2 false, .assignEntry 1 true, .conflict,
         .assignEntry (-2) false, .assignEntry 1 true, .conflict]) ∧
    LogEntry.assignEntry (toLiteral 1 false) false ∈
      ([.assignEntry 1 false, .assignEntry 2 true, .conflict,
        .assignEntry (-1) false, .assignEntry 2 true, .conflict,
        .assignEntry 2 false, .assignEntry 1 true, .conflict,
        .assignEntry (-2) false, .assignEntry 1 true, .conflict] : List LogEntry) ∧
    LogEntry.assignEntry (toLiteral 1 true) false ∈
      ([.assignEntry 1 false, .assignEntry 2 true, .conflict,
        .assignEntry (-1) false, .assignEntry 2 true, .conflict,
        .assignEntry 2 false, .assignEntry 1 true, .conflict,
        .assignEntry (-2) false, .assignEntry 1 true, .conflict] : List LogEntry) :=
  ⟨C6_decision_order.1 [[1, 2], [-2, 3], [2, 3]] LiteralAssignment.init,
    by decide,
    (C6_decision_order.2 98 [[1, 2], [1, -2], [-1, 2], [-1, -2]] 1 [2]
      ⟨LiteralAssignment.init, []⟩ { assigned := false, value := false }
      ⟨⟨[false, true, false, false]⟩, []⟩
      [.assignEntry 1 false, .assignEntry 2 true, .conflict,
       .assignEntry (-1) false, .assignEntry 2 true, .conflict,
       .assignEntry 2 false, .assignEntry 1 true, .conflict,
       .assignEntry (-2) false, .assignEntry 1 true, .conflict]
      (by decide) (by decide)).1,
    (C6_decision_order.2 98 [[1, 2], [1, -2], [-1, 2], [-1, -2]] 1 [2]
      ⟨LiteralAssignment.init, []⟩ { assigned := false, value := false }
      ⟨⟨[false, true, false, false]⟩, []⟩
      [.assignEntry 1 false, .assignEntry 2 true, .conflict,
       .assignEntry (-1) false, .assignEntry 2 true, .conflict,
       .assignEntry 2 false, .assignEntry 1 true, .conflict,
       .assignEntry (-2) false, .assignEntry 1 true, .conflict]
      (by decide) (by decide)).2⟩

/-- C7 counterexample: on the input `3 0\n1 2 0\n-1 2 0\n` the builder
assigns variable 3 before the search starts; after the engine's first
`assign` the store has variable 3 assigned while the trail carries only
the decision variable — the assigned set strictly contains the trail
variables. -/
theorem C7_counterexample :
    FileParser.parseInput ("3 0\n1 2 0\n-1 2 0\n".toList) =
      .built [[1, 2], [-1, 2]] ⟨[false, false, false, false, true, true]⟩ ∧
    ((DPLL.assign ⟨⟨[false, false, false, false, true, true]⟩, []⟩
        (toLiteral 1 false) false).assignments.lookup 3).isSome = true ∧
    3 ∉ trailVars (DPLL.assign ⟨⟨[false, false, false, false, true, true]⟩, []⟩
        (toLiteral 1 false) false) := by
  exact ⟨by decide, by decide, by decide⟩

/-- C7 (amended): the correct trail invariant is relative to the store
the engine started from — each `assign` pushes one trail entry and adds
exactly that entry's variable to the assigned set, and each `unwind`
pops one propagation block plus its decision and unassigns exactly the
popped variables; variables assigned before the search (builder unit
clauses, simplifier propagations) stay assigned without a trail entry. -/
theorem C7_trail_delta :
    (∀ (st : DPLLState) (lit : Int) (u : Bool), st.assignments.WF → lit ≠ 0 →
      (DPLL.assign st lit u).trail = ⟨lit, u⟩ :: st.trail ∧
      (DPLL.assign st lit u).assignments.lookup (toVariable lit) = some (litPol lit) ∧
      (∀ x, 1 ≤ x → x ≠ toVariable lit →
        (DPLL.assign st lit u).assignments.lookup x = st.assignments.lookup x)) ∧
    (∀ (σ : LiteralAssignment) (us : List TrailStep) (dec : TrailStep) (T : List TrailStep),
      σ.WF → (∀ s ∈ us, s.unit = true) → dec.unit = false →
      (∀ s ∈ us, 1 ≤ toVariable s.assignment) → 1 ≤ toVariable dec.assignment →
      (DPLL.unwind ⟨σ, us ++ dec :: T⟩).trail = T ∧
      (∀ x, 1 ≤ x →
        (DPLL.unwind ⟨σ, us ++ dec :: T⟩).assignments.lookup x =
          if x ∈ (us ++ [dec]).map (fun s => toVariable s.assignment) then none
          else σ.lookup x)) := by
  constructor
  · intro st lit u hW hl
    refine ⟨rfl, ?_, ?_⟩
    · exact lookup_assignLiteral_true_self st.assignments hl
    · intro x hx hne
      exact lookup_assignLiteral_ne st.assignments hW true hl hx hne
  · intro σ us dec T hW hu hd hvars hvdec
    have hblock : DPLL.unwindLoop (us ++ dec :: T) σ =
        ((unassignSteps us σ).unassignVariable (toVariable dec.assignment), T) :=
      unwindLoop_block us hu dec hd T σ
    have hunw : DPLL.unwind ⟨σ, us ++ dec :: T⟩ =
        ⟨(unassignSteps us σ).unassignVariable (toVariable dec.assignment), T⟩ := by
      unfold DPLL.unwind
      rw [hblock]
    rw [hunw]
    refine ⟨rfl, ?_⟩
    intro x hx
    by_cases hxd : x = toVariable dec.assignment
    · rw [hxd]
      rw [(unassignSteps us σ).lookup_unassignVariable_self _ hvdec]
      rw [if_pos (by simp)]
    · rw [(unassignSteps us σ).lookup_unassignVariable_ne hvdec hx hxd]
      rw [unassignSteps_lookup us hvars σ x hx]
      by_cases hxu : x ∈ us.map fun s => toVariable s.assignment
      · rw [if_pos hxu, if_pos (by
          simp only [List.map_append, List.mem_append]
          exact .inl hxu)]
      · rw [if_neg hxu, if_neg (by
          simp only [List.map_append, List.mem_append, List.map_cons, List.map_nil,
            List.mem_cons, List.not_mem_nil, or_false]
          rintro (h1 | h2)
          · exact hxu h1
          · exact hxd h2)]

theorem C7_witness :
    LiteralAssignment.init.WF ∧ (-3 : Int) ≠ 0 ∧
    (DPLL.assign ⟨LiteralAssignment.init, []⟩ (-3) false).trail = [⟨-3, false⟩] ∧
    (DPLL.assign ⟨LiteralAssignment.init, []⟩ (-3) false).assignments.lookup 3 =
      some false ∧
    (DPLL.assign ⟨LiteralAssignment.init, []⟩ (-3) false).assignments.lookup 1 = none ∧
    (DPLL.unwind ⟨⟨[true, true, true, false]⟩,
        [⟨2, true⟩] ++ (⟨1, false⟩ : TrailStep) :: []⟩).trail = [] ∧
    (DPLL.unwind ⟨⟨[true, true, true, false]⟩,
        [⟨2, true⟩] ++ (⟨1, false⟩ : TrailStep) :: []⟩).assignments.lookup 2 = none := by
  have ha := C7_trail_delta.1 ⟨LiteralAssignment.init, []⟩ (-3) false rfl (by decide)
  have hb := C7_trail_delta.2 ⟨[true, true, true, false]⟩ [⟨2, true⟩] ⟨1, false⟩ []
    rfl (by decide) rfl (by decide) (by decide)
  refine ⟨rfl, by decide, ha.1, ?_, ?_, hb.1, ?_⟩
  · have := ha.2.1
    simpa using this
  · have := ha.2.2 1 (by decide) (by decide)
    rw [this]
    decide
  · have := hb.2 2 (by decide)
    rw [this]
    decide

/-- C1: soundness of the SAT verdict — a `{assigned, value} = {true, true}`
result of `Simplifier::run` or of `DPLL::step` satisfies every clause the
respective phase ran on, and whenever the pipeline prints a SAT model it
was read off a store satisfying every input clause. -/
theorem C1_sat_sound :
    (∀ (fuel : Nat) (σ : LiteralAssignment) (f : List (List Int)) (res : Assignment)
        (σ1 : LiteralAssignment), σ.WF →
      Simplifier.runFuel fuel σ f = some (res, σ1) →
      res = { assigned := true, value := true } → ∀ c ∈ f, ClauseSat σ1 c) ∧
    (∀ (fuel : Nat) (f : List (List Int)) (call : DCall) (res : Assignment)
        (st1 : DPLLState) (log : List LogEntry),
      call.state.assignments.WF → CallVarsOK f call →
      dpllGo fuel f call = some (res, st1, log) →
      res = { assigned := true, value := true } → ∀ c ∈ f, ClauseSat st1.assignments c) ∧
    (∀ (f : List (List Int)) (σ0 : LiteralAssignment) (m : List Int)
        (σf : LiteralAssignment), σ0.WF →
      solverPhasesFull f σ0 = some (.sat m, σf) →
      (∀ c ∈ f, ClauseSat σf c) ∧ m = σf.printModel) := by
  refine ⟨?_, ?_, ?_⟩
  · intro fuel σ f res σ1 hW h hres
    exact (simplifierRun_spec fuel σ f res σ1 h hW).2.2.1 hres
  · intro fuel f call res st1 log hW hOK h hres
    exact (dpllGo_spec fuel f call res st1 log h hW hOK).2.2.2.1 hres
  · intro f σ0 m σf hW h
    unfold solverPhasesFull at h
    split at h
    · exact Option.noConfusion h
    · rename_i res σ1 heq
      have hspec := simplifierRun_spec _ _ _ _ _ heq hW
      split at h
      · rename_i ha
        split at h
        · rename_i hv
          injection h with h2
          have hσ : σ1 = σf := congrArg Prod.snd h2
          have hm : Verdict.sat σ1.printModel = .sat m := congrArg Prod.fst h2
          have hm2 : σ1.printModel = m := by injection hm
          have hres : res = { assigned := true, value := true } := Assignment.eq_tt ha hv
          subst hσ
          exact ⟨hspec.2.2.1 hres, hm2.symm⟩
        · exfalso
          injection h with h2
          have := congrArg Prod.fst h2
          simp at this
      · dsimp only at h
        split at h
        · exact Option.noConfusion h
        · rename_i a st log heq2
          split at h
          · rename_i hsat2
            injection h with h2
            have hσ : st.assignments = σf := congrArg Prod.snd h2
            have hm : Verdict.sat st.assignments.printModel = .sat m := congrArg Prod.fst h2
            have hm2 : st.assignments.printModel = m := by injection hm
            have hres2 : a = { assigned := true, value := true } :=
              Assignment.eq_tt hsat2.1 hsat2.2
            have hdspec := dpllGo_spec _ _ _ _ _ _ heq2
              (show (DCall.step ⟨σ1, []⟩).state.assignments.WF from hspec.1) True.intro
            have hsatf1 := hdspec.2.2.2.1 hres2
            have hE : Ext σ1 st.assignments := hdspec.2.1
            have hall := simplifyFormula_sat_transfer hE hsatf1
            subst hσ
            exact ⟨hall, hm2.symm⟩
          · exfalso
            injection h with h2
            have := congrArg Prod.fst h2
            simp at this

theorem C1_witness :
    LiteralAssignment.init.WF ∧
    solverPhasesFull [[1]] LiteralAssignment.init = some (.sat [1], ⟨[true, true]⟩) ∧
    ClauseSat (⟨[true, true]⟩ : LiteralAssignment) [1] ∧
    [1] = LiteralAssignment.printModel ⟨[true, true]⟩ :=
  ⟨rfl, by decide,
    (C1_sat_sound.2.2 [[1]] LiteralAssignment.init [1] ⟨[true, true]⟩ rfl (by decide)).1
      [1] (List.mem_cons_self _ _),
    (C1_sat_sound.2.2 [[1]] LiteralAssignment.init [1] ⟨[true, true]⟩ rfl (by decide)).2⟩

/-- C8: terminal signals of the Simplify phase, read on the live
pipeline — a clause whose literals are all assigned false (an "empty"
clause after removal of its falsified literals) makes the phase answer
UNSAT; a simplified clause set that became empty makes it answer SAT;
and an undetermined result hands a non-empty clause set to DPLL. -/
theorem C8_simplifier_signals :
    ∀ (f : List (List Int)) (σ0 : LiteralAssignment) (res : Assignment)
      (σ1 : LiteralAssignment), σ0.WF →
      Simplifier.runFuel (simplifierFuel f) σ0 f = some (res, σ1) →
      ((f.any fun c => c.all fun l =>
          l == 0 || σ1.getLiteralAssignment l ==
            ({ assigned := true, value := false } : Assignment)) = true →
        solverPhasesFull f σ0 = some (.unsat, σ1)) ∧
      (Node.simplifyFormula σ1 f = [] →
        solverPhasesFull f σ0 = some (.sat σ1.printModel, σ1)) ∧
      (res.assigned = false → Node.simplifyFormula σ1 f ≠ []) := by
  intro f σ0 res σ1 hW heq
  have hspec := simplifierRun_spec _ _ _ _ _ heq hW
  have hiii : res.assigned = false → Node.simplifyFormula σ1 f ≠ [] := by
    intro hna hf0
    have hfix2 : Node.rootLoop true σ1 { assigned := true, value := true } f =
        (res, σ1, []) := hspec.2.2.2.1 hna
    have hprops : (Node.rootLoop true σ1 { assigned := true, value := true } f).2.2 = [] := by
      rw [hfix2]
    have hresa : (Node.rootLoop true σ1 { assigned := true, value := true } f).1.assigned =
        false := by
      rw [hfix2]
      exact hna
    rcases rootLoop_unassigned true f σ1 _ hprops hresa with h1 | ⟨c, hc, hcun⟩
    · simp at h1
    · have hpr2 : (Node.evaluateClause true σ1 c).2 = (σ1, []) :=
        evaluateClause_unassigned true σ1 c hcun
      have hpr22 : (Node.evaluateClause true σ1 c).2.2 = [] := by
        rw [hpr2]
      have hnp : Node.evaluateClause false σ1 c = Node.evaluateClause true σ1 c :=
        evaluateClause_noprop σ1 c hpr22
      have hkept : (c.filter fun l => !(l == 0) && !(σ1.getLiteralAssignment l).assigned) ∈
          Node.simplifyFormula σ1 f := by
        unfold Node.simplifyFormula
        refine List.mem_map.mpr ⟨c, List.mem_filter.mpr ⟨hc, ?_⟩, rfl⟩
        rw [hnp, hcun]
        rfl
      rw [hf0] at hkept
      exact absurd hkept (List.not_mem_nil _)
  refine ⟨?_, ?_, hiii⟩
  · intro hany
    have hex : ∃ c, c ∈ f ∧ ∀ l ∈ c, l ≠ 0 →
        σ1.getLiteralAssignment l = { assigned := true, value := false } := by
      rw [List.any_eq_true] at hany
      obtain ⟨c, hcf, hcall⟩ := hany
      refine ⟨c, hcf, ?_⟩
      intro l hl hl0
      have h1 := List.all_eq_true.mp hcall l hl
      simp only [Bool.or_eq_true, beq_iff_eq] at h1
      rcases h1 with h1 | h1
      · exact absurd h1 hl0
      · exact h1
    obtain ⟨c, hc, hAF⟩ := hex
    by_cases hra : res.assigned = true
    · by_cases hrv : res.value = true
      · exfalso
        have hres : res = { assigned := true, value := true } := Assignment.eq_tt hra hrv
        have hcs := hspec.2.2.1 hres c hc
        unfold ClauseSat at hcs
        rw [evaluateClause_allFalse false σ1 c hAF] at hcs
        simp at hcs
      · unfold solverPhasesFull
        rw [heq]
        dsimp only
        rw [if_pos hra, if_neg hrv]
    · exfalso
      have hna : res.assigned = false := by
        simpa using hra
      have hfix2 : Node.rootLoop true σ1 { assigned := true, value := true } f =
          (res, σ1, []) := hspec.2.2.2.1 hna
      have hfalse := rootLoop_false_of_allFalse true f σ1 { assigned := true, value := true }
        rfl (by rw [hfix2]) ⟨c, hc, hAF⟩
      rw [hfix2] at hfalse
      have hres : res = { assigned := true, value := false } := hfalse
      rw [hres] at hna
      simp at hna
  · intro hf0
    have hfilter : (f.filter fun c => !((Node.evaluateClause false σ1 c).1.assigned &&
        (Node.evaluateClause false σ1 c).1.value)) = [] := by
      unfold Node.simplifyFormula at hf0
      exact List.map_eq_nil_iff.mp hf0
    have hall : ∀ c ∈ f, ClauseSat σ1 c := by
      intro c hc
      have hnm := List.filter_eq_nil_iff.mp hfilter c hc
      simp only [Bool.not_eq_true, Bool.not_eq_false'] at hnm
      rw [Bool.and_eq_true] at hnm
      exact Assignment.eq_tt hnm.1 hnm.2
    have hra : res.assigned = true := by
      by_contra hna2
      exact hiii (by simpa using hna2) hf0
    by_cases hrv : res.value = true
    · unfold solverPhasesFull
      rw [heq]
      dsimp only
      rw [if_pos hra, if_pos hrv]
    · exfalso
      have hres : res = { assigned := true, value := false } := by
        rcases res with ⟨x, y⟩
        simp only at hra
        simp only [Bool.not_eq_true] at hrv
        rw [show x = true from hra, show y = false from by simpa using hrv]
      obtain ⟨σp, prs, hWp, hev⟩ := hspec.2.2.2.2
      have hev2 : Node.rootLoop true σp { assigned := true, value := true } f =
          ({ assigned := true, value := false }, σ1, prs) := by
        rw [← hres]
        exact hev
      have hres1 : (Node.rootLoop true σp { assigned := true, value := true } f).1 =
          { assigned := true, value := false } := by
        rw [hev2]
      obtain ⟨c, hc, σmid, hExtm, hcf⟩ :=
        rootLoop_false_char true f σp { assigned := true, value := true } hWp rfl hres1
      have hstore : (Node.rootLoop true σp { assigned := true, value := true } f).2.1 = σ1 := by
        rw [hev2]
      rw [hstore] at hExtm
      have hAF := evaluateClause_false_char true σmid c hcf
      have hAF1 : ∀ l ∈ c, l ≠ 0 →
          σ1.getLiteralAssignment l = { assigned := true, value := false } := by
        intro l hl hl0
        have h1 := hAF l hl hl0
        rw [getLiteralAssignment_false_iff] at h1 ⊢
        exact hExtm _ _ (one_le_toVariable hl0) h1
      have hcs := hall c hc
      unfold ClauseSat at hcs
      rw [evaluateClause_allFalse false σ1 c hAF1] at hcs
      simp at hcs

theorem C8_witness :
    LiteralAssignment.init.WF ∧
    Simplifier.runFuel (simplifierFuel [[1], [-1]]) LiteralAssignment.init [[1], [-1]] =
      some ({ assigned := true, value := false }, ⟨[true, true]⟩) ∧
    (([[1], [-1]] : List (List Int)).any fun c => c.all fun l =>
      l == 0 || (⟨[true, true]⟩ : LiteralAssignment).getLiteralAssignment l ==
        ({ assigned := true, value := false } : Assignment)) = true ∧
    solverPhasesFull [[1], [-1]] LiteralAssignment.init = some (.unsat, ⟨[true, true]⟩) :=
  ⟨rfl, by decide, by decide,
    (C8_simplifier_signals [[1], [-1]] LiteralAssignment.init
      { assigned := true, value := false } ⟨[true, true]⟩ rfl (by decide)).1 (by decide)⟩

end Satellite
